import Mathlib

/-!
Verification of the `dit` multi-source merge/copy tool (Rust) against its
natural-language specification.

The Rust sources are shallowly embedded as executable Lean definitions.
Filesystem paths are modelled structurally: a path is a root string (the
read/write path exactly as given on the command line) together with the list
of relative components pushed under it, mirroring the way every path in the
program is built (`PathBuf::from(root)` followed by `push`es of relative
sub-path components).  The filesystem itself, SHA-256 hashing and the other
OS calls are modelled as oracles (functions supplied as parameters), since
their implementations are external to the program under verification.
-/

namespace Dit

/-- A filesystem path as the program builds it: a root directory string plus
the relative components pushed under it (`PathBuf::from(root)` + `push`). -/
structure FPath where
  root : String
  comps : List String
deriving DecidableEq, Repr

/-- Rust `Path::file_name` for the paths the program builds: the final pushed
component (none when no component was pushed). -/
def FPath.fileName (p : FPath) : Option String :=
  p.comps.getLast?

/-- message.rs: ordering token telling the arbiter what the next unit is. -/
inductive TransferRequest where
  | Copy
  | Merge
deriving DecidableEq, Repr

/-- message.rs: request to hash the contents of the given source file. -/
structure HashRequest where
  sub_path : List String
  src_path : FPath
deriving DecidableEq, Repr

/-- message.rs: the result of hashing the contents of a source file. -/
structure HashResult where
  sub_path : List String
  src_path : FPath
  hash : String
deriving DecidableEq, Repr

/-- message.rs: copy one source file to its place in all destinations. -/
structure CopyToDestRequest where
  sub_path : List String
  src_path : FPath
deriving DecidableEq, Repr

/-- message.rs: copy one source file to one destination file. -/
structure CopyFileRequest where
  src_path : FPath
  dest_path : FPath
deriving DecidableEq, Repr

/-- common.rs: result of a merge or copy operation. -/
inductive MergeResult where
  | Ok
  | Conflict
  | Error
deriving DecidableEq, Repr

/-- Severity encoding of `MergeResult` for the total order Ok < Conflict < Error. -/
def MergeResult.toNat : MergeResult → Nat
  | .Ok => 0
  | .Conflict => 1
  | .Error => 2

/-- common.rs `ThreadRunContext`: the `running` flag of one thread together
with the `clean` flag shared with the root context. -/
structure RunCtx where
  running : Bool
  clean : Bool
deriving DecidableEq, Repr

/-- common.rs `ThreadRunContext::unclean_shutdown`: store false into `clean`,
then store false into `running`. -/
def RunCtx.uncleanShutdown (_ : RunCtx) : RunCtx :=
  { running := false, clean := false }

/-- The filesystem and hashing oracles used by the merge thread: existence,
metadata size (`none` models a metadata read error), and `fsutil::hash_file`
(`none` models a hashing error). -/
structure FS where
  ex : FPath → Bool
  meta : FPath → Option Nat
  hashFile : FPath → Option String

/-- common.rs `has_write_merge_conflict`: read the source metadata; for every
write path whose `write_path/sub_path` exists, compare sizes; any mismatch or
any metadata read error (source or destination) yields true. -/
def has_write_merge_conflict (fs : FS) (write_paths : List String)
    (src_path : FPath) (sub_path : List String) : Bool :=
  match fs.meta src_path with
  | some srcLen =>
    write_paths.any fun wp =>
      let dest : FPath := ⟨wp, sub_path⟩
      if fs.ex dest then
        match fs.meta dest with
        | some destLen => srcLen != destLen
        | none => true
      else false
  | none => true

/-- Split a character list at its final `'.'`: `(before, some after)` when a
dot occurs, `(cs, none)` otherwise.  This is the elementary operation behind
Rust `Path::file_stem` / `Path::extension`, whose documented behaviour the
source quotes verbatim in `get_merge_conflict_dest_file_path`. -/
def splitLastDot : List Char → List Char × Option (List Char)
  | [] => ([], none)
  | c :: rest =>
    match splitLastDot rest with
    | (b, some a) => (c :: b, some a)
    | (_, none) => if c = '.' then ([], some rest) else (c :: rest, none)

/-- Rust `Path::file_stem` on a file name: the whole name when it has no
embedded dot or when it begins with `.` and has no other dot; otherwise the
portion before the final dot. -/
def stemOfName (name : String) : String :=
  match splitLastDot name.data with
  | (_, none) => name
  | (b, some _) => if b = [] then name else String.mk b

/-- Rust `Path::extension` on a file name: none when there is no embedded dot
or the name begins with `.` and has no other dot; otherwise the portion after
the final dot. -/
def extOfName (name : String) : Option String :=
  match splitLastDot name.data with
  | (_, none) => none
  | (b, some a) => if b = [] then none else some (String.mk a)

/-- threads.rs `get_merge_conflict_dest_file_path`, file-name part: build
`<stem>.__<conflict_type>__<hash><.ext when present>` exactly as the source
pushes the pieces onto its `file_name` string. -/
def mergeConflictFileName (srcFileName : Option String) (hashPart : String)
    (conflictType : String) : String :=
  (match srcFileName with
   | some n => stemOfName n ++ "."
   | none => "")
  ++ "__" ++ conflictType ++ "__" ++ hashPart
  ++ (match srcFileName with
      | some n =>
        match extOfName n with
        | some e => "." ++ e
        | none => ""
      | none => "")

/-- threads.rs `get_merge_conflict_dest_file_path`: the conflict-named
destination path under `write_path`, in the parent directory of `sub_path`.
When no hash is supplied it is computed on demand with `hash_file`; if that
fails the name is emitted with an empty hash portion. -/
def get_merge_conflict_dest_file_path (fs : FS) (write_path : String)
    (src_path : FPath) (sub_path : List String) (hash : Option String)
    (conflict_type : String) : FPath :=
  let hashPart : String :=
    match hash with
    | some h => h
    | none =>
      match fs.hashFile src_path with
      | some h => h
      | none => ""
  ⟨write_path, sub_path.dropLast ++
    [mergeConflictFileName src_path.fileName hashPart conflict_type]⟩

/-- Lexicographic order on character lists; on UTF-8 strings the byte-wise
order a Rust `BTreeMap<String, _>` uses coincides with this codepoint
order. -/
def charListLt : List Char → List Char → Bool
  | _, [] => false
  | [], _ :: _ => true
  | c :: cs, d :: ds =>
    if c.toNat < d.toNat then true
    else if d.toNat < c.toNat then false
    else charListLt cs ds

/-- The string order of the `BTreeMap` / `BTreeSet` models. -/
def strLt (s t : String) : Bool :=
  charListLt s.data t.data

/-- Ordered insertion into the `BTreeMap<String, HashResult>` model: a list
of key-value pairs kept sorted by key (lexicographic string order, the
`BTreeMap` iteration order).  Insertion of an existing key keeps the stored
value, matching the `contains_key` guard in the source. -/
def btreeInsert (k : String) (v : HashResult) :
    List (String × HashResult) → List (String × HashResult)
  | [] => [(k, v)]
  | (k', v') :: rest =>
    if strLt k k' then (k, v) :: (k', v') :: rest
    else if k = k' then (k', v') :: rest
    else (k', v') :: btreeInsert k v rest

/-- Does the map contain the key? (`BTreeMap::contains_key`). -/
def btreeContains (k : String) (m : List (String × HashResult)) : Bool :=
  m.any fun p => p.1 = k

/-- threads.rs `handle_hash_merge`, map-building loop: fold the received
optional hash results into the deduplication map, inserting only the
first-seen representative per hash and discarding `None` placeholders. -/
def buildHashMap (recvd : List (Option HashResult)) :
    List (String × HashResult) :=
  recvd.foldl
    (fun m o =>
      match o with
      | some res => if btreeContains res.hash m then m else btreeInsert res.hash res m
      | none => m)
    []

/-- threads.rs `handle_hash_merge`, receive loop: take one element from each
hash-result channel in index order.  A channel is a queue (list); an empty
queue models `recv` failing (sender disconnected).  Returns the received
elements (`none` on failure) and the channels after consumption. -/
def recvAll : List (List (Option HashResult)) →
    Option (List (Option HashResult)) × List (List (Option HashResult))
  | [] => (some [], [])
  | [] :: rest => (none, [] :: rest)
  | (x :: xs) :: rest =>
    match recvAll rest with
    | (some recvd, rem) => (some (x :: recvd), xs :: rem)
    | (none, rem) => (none, xs :: rem)

/-- Output of the arbiter's `handle_copy_to_dest`: the merge result, the
updated run context, the copy-to-dest queue after the receive, and the
copy-file requests sent, tagged with the write-path index of their channel. -/
structure CtdOut where
  result : MergeResult
  ctx : RunCtx
  queue : List CopyToDestRequest
  sends : List (Nat × CopyFileRequest)
deriving DecidableEq, Repr

/-- threads.rs `handle_copy_to_dest`: receive one `CopyToDestRequest`, probe
`has_write_merge_conflict`, and for each write path enqueue either the plain
destination or a `WRITE_MERGE_CONFLICT`-named destination (hash computed on
demand).  Channel sends are modelled as always succeeding; they are guarded
by `is_clean` as in the source.  Note the source falls through to
`MergeResult::Ok` at the end even in the write-conflict case. -/
def handle_copy_to_dest (fs : FS) (ctx : RunCtx) (write_paths : List String)
    (queue : List CopyToDestRequest) : CtdOut :=
  match queue with
  | [] =>
    { result := .Error
      ctx := if ctx.clean then ctx.uncleanShutdown else ctx
      queue := []
      sends := [] }
  | req :: rest =>
    let conflict := has_write_merge_conflict fs write_paths req.src_path req.sub_path
    let sends :=
      write_paths.enum.foldl
        (fun acc iwp =>
          let cfr : CopyFileRequest :=
            if conflict then
              { src_path := req.src_path
                dest_path := get_merge_conflict_dest_file_path fs iwp.2
                  req.src_path req.sub_path none "WRITE_MERGE_CONFLICT" }
            else
              { src_path := req.src_path, dest_path := ⟨iwp.2, req.sub_path⟩ }
          if ctx.clean then acc ++ [(iwp.1, cfr)] else acc)
        []
    { result := .Ok, ctx := ctx, queue := rest, sends := sends }

/-- Output of the arbiter's `handle_hash_merge`: merge result, updated run
context, the hash-result channels after consumption, and the copy-file
requests sent, tagged with the write-path index of their channel. -/
structure HmOut where
  result : MergeResult
  ctx : RunCtx
  channels : List (List (Option HashResult))
  sends : List (Nat × CopyFileRequest)
deriving DecidableEq, Repr

/-- threads.rs `handle_hash_merge`: receive one element from each hash-result
channel, deduplicate by hash into the ordered map, then dispatch on the
number of distinct hashes: 0 is a protocol error; 1 copies the agreed file
to every write path (with a `WRITE_MERGE_CONFLICT` name if the destination
metadata conflicts, promoting to `Conflict`); 2 or more enqueues a
`READ_MERGE_CONFLICT`-named copy per write path per distinct hash and
returns `Conflict`. -/
def handle_hash_merge (fs : FS) (ctx : RunCtx) (write_paths : List String)
    (channels : List (List (Option HashResult))) : HmOut :=
  match recvAll channels with
  | (none, rem) =>
    { result := .Error
      ctx := if ctx.clean then ctx.uncleanShutdown else ctx
      channels := rem
      sends := [] }
  | (some recvd, rem) =>
    match buildHashMap recvd with
    | [] =>
      { result := .Error
        ctx := if ctx.clean then ctx.uncleanShutdown else ctx
        channels := rem
        sends := [] }
    | [(_, res)] =>
      let conflict :=
        has_write_merge_conflict fs write_paths res.src_path res.sub_path
      let sends :=
        write_paths.enum.foldl
          (fun acc iwp =>
            let cfr : CopyFileRequest :=
              if conflict then
                { src_path := res.src_path
                  dest_path := get_merge_conflict_dest_file_path fs iwp.2
                    res.src_path res.sub_path (some res.hash)
                    "WRITE_MERGE_CONFLICT" }
              else
                { src_path := res.src_path, dest_path := ⟨iwp.2, res.sub_path⟩ }
            if ctx.clean then acc ++ [(iwp.1, cfr)] else acc)
          []
      { result := if conflict then .Conflict else .Ok
        ctx := ctx, channels := rem, sends := sends }
    | m =>
      let sends :=
        write_paths.enum.foldl
          (fun acc iwp =>
            acc ++ m.map fun e =>
              (iwp.1,
               { src_path := e.2.src_path
                 dest_path := get_merge_conflict_dest_file_path fs iwp.2
                   e.2.src_path e.2.sub_path (some e.2.hash)
                   "READ_MERGE_CONFLICT" : CopyFileRequest }))
          []
      { result := .Conflict, ctx := ctx, channels := rem, sends := sends }

/-- threads.rs `max_merge_result`: Error dominates, then Conflict, then Ok. -/
def max_merge_result (a b : MergeResult) : MergeResult :=
  if a = .Error ∨ b = .Error then .Error
  else if a = .Conflict ∨ b = .Conflict then .Conflict
  else .Ok

/-- State of the arbiter thread: its run context and the receive ends it
owns (the copy-to-dest queue and the hash-result channels). -/
structure ArbState where
  ctx : RunCtx
  copyQ : List CopyToDestRequest
  hashQs : List (List (Option HashResult))
deriving Repr

/-- threads.rs `handle_xfer_req`: dispatch one ordering token. -/
def handle_xfer_req (fs : FS) (write_paths : List String) (st : ArbState)
    (t : TransferRequest) :
    MergeResult × ArbState × List (Nat × CopyFileRequest) :=
  match t with
  | .Copy =>
    let o := handle_copy_to_dest fs st.ctx write_paths st.copyQ
    (o.result, { ctx := o.ctx, copyQ := o.queue, hashQs := st.hashQs }, o.sends)
  | .Merge =>
    let o := handle_hash_merge fs st.ctx write_paths st.hashQs
    (o.result, { ctx := o.ctx, copyQ := st.copyQ, hashQs := o.channels }, o.sends)

/-- Output of the merge thread run: the ratcheted merge result, the final
arbiter state, all copy-file requests sent, and (model instrumentation) the
list of per-transfer-request results in handling order. -/
structure MergeRunOut where
  result : MergeResult
  state : ArbState
  sends : List (Nat × CopyFileRequest)
  unitResults : List MergeResult
deriving Repr

/-- threads.rs `merge`: consume the transfer-request queue in order,
ratcheting the result with `max_merge_result` (starting from `Ok`).  The
two phases of the source loop (run while `running`, then drain while
`clean`) collapse to: keep consuming unless an unclean shutdown has been
observed (`running` and `clean` both false). -/
def mergeRun (fs : FS) (write_paths : List String) (st : ArbState) :
    List TransferRequest → MergeRunOut
  | [] => { result := .Ok, state := st, sends := [], unitResults := [] }
  | t :: ts =>
    if !st.ctx.running && !st.ctx.clean then
      { result := .Ok, state := st, sends := [], unitResults := [] }
    else
      let h := handle_xfer_req fs write_paths st t
      let o := mergeRun fs write_paths h.2.1 ts
      { result := max_merge_result h.1 o.result
        state := o.state
        sends := h.2.2 ++ o.sends
        unitResults := h.1 :: o.unitResults }

/-- api.rs `copy`, final result: `Error` when the shared `clean` flag is
false at the end of the run, otherwise the arbiter's result. -/
def copyFinalResult (clean : Bool) (merge_result : MergeResult) : MergeResult :=
  if !clean then .Error else merge_result

/-- Filesystem actions the copy worker performs, in order, while handling one
`CopyFileRequest`.  Recording them as a trace lets the theorems speak about
what was created, written and removed. -/
inductive CopyAction where
  | mkdirP (p : FPath)
  | mkstempAct (dir : FPath) (tmp : FPath)
  | copyData (src : FPath) (tmp : FPath)
  | copyTimeMeta (src : FPath) (tmp : FPath)
  | chmodAct (p : FPath)
  | renameAct (src : FPath) (dest : FPath)
  | removeFile (p : FPath)
deriving DecidableEq, Repr

/-- Oracles for one `handle_copy` call: the current existence predicate and
the success/failure outcome of each fallible OS operation the worker uses
(`mkdir_p`, `mkstemp` with its chosen temp path, `File::open` on the source,
`copy_file`, `copy_file_time_metadata`, `chmod`, `atomic_rename`). -/
structure CopyEnv where
  ex : FPath → Bool
  mkdirOk : Bool
  mkstempRes : Option FPath
  openSrcOk : Bool
  copyFileOk : Bool
  copyTimeOk : Bool
  chmodOk : Bool
  renameOk : Bool

/-- Rust `Path::parent` for the paths the program builds: strip the final
pushed component; none when no component was pushed (the source treats that
as an invalid destination path). -/
def FPath.parent (p : FPath) : Option FPath :=
  match p.comps with
  | [] => none
  | _ => some ⟨p.root, p.comps.dropLast⟩

/-- threads.rs `handle_copy`: return silently when the destination already
exists; otherwise create the parent directory if needed, `mkstemp`, stream
the source into the temp file, propagate time metadata, chmod 0644, and
atomically rename into place.  Every failure logs and calls
`unclean_shutdown`; only the failure to open the source file also attempts
to remove the temp file before returning. -/
def handle_copy (env : CopyEnv) (ctx : RunCtx) (req : CopyFileRequest) :
    RunCtx × List CopyAction :=
  if env.ex req.dest_path then (ctx, [])
  else
    match req.dest_path.parent with
    | none => (ctx.uncleanShutdown, [])
    | some destParent =>
      let mkActs : List CopyAction :=
        if env.ex destParent then [] else [.mkdirP destParent]
      if !env.ex destParent && !env.mkdirOk then (ctx.uncleanShutdown, mkActs)
      else
        match env.mkstempRes with
        | none => (ctx.uncleanShutdown, mkActs)
        | some tmp =>
          let acts := mkActs ++ [.mkstempAct destParent tmp]
          if !env.openSrcOk then
            (ctx.uncleanShutdown, acts ++ [.removeFile tmp])
          else if !env.copyFileOk then
            (ctx.uncleanShutdown, acts ++ [.copyData req.src_path tmp])
          else
            let acts := acts ++ [.copyData req.src_path tmp]
            if !env.copyTimeOk then
              (ctx.uncleanShutdown, acts ++ [.copyTimeMeta req.src_path tmp])
            else
              let acts := acts ++ [.copyTimeMeta req.src_path tmp]
              if !env.chmodOk then
                (ctx.uncleanShutdown, acts ++ [.chmodAct tmp])
              else
                let acts := acts ++ [.chmodAct tmp]
                if !env.renameOk then
                  (ctx.uncleanShutdown, acts ++ [.renameAct tmp req.dest_path])
                else
                  (ctx, acts ++ [.renameAct tmp req.dest_path])

/-- Effect of one copy-worker action on file existence: `mkstemp` creates the
temp path, `remove_file` deletes its argument, `rename` moves its source onto
its destination; data and metadata operations do not change existence. -/
def applyAction (ex : FPath → Bool) : CopyAction → (FPath → Bool)
  | .mkdirP p => fun q => if q = p then true else ex q
  | .mkstempAct _ tmp => fun q => if q = tmp then true else ex q
  | .removeFile p => fun q => if q = p then false else ex q
  | .renameAct src dest => fun q =>
    if q = dest then true else if q = src then false else ex q
  | _ => ex

/-- Effect of a copy-worker action trace on file existence. -/
def applyActions (ex : FPath → Bool) (acts : List CopyAction) : FPath → Bool :=
  acts.foldl applyAction ex

/-- threads.rs `handle_hash_req`: hash the requested file, returning a
`HashResult`; on a hashing error log and `unclean_shutdown` and return the
`None` placeholder; a `None` request yields a `None` placeholder. -/
def handle_hash_req (fs : FS) (ctx : RunCtx) (req : Option HashRequest) :
    Option HashResult × RunCtx :=
  match req with
  | some hashReq =>
    match fs.hashFile hashReq.src_path with
    | some h =>
      (some { sub_path := hashReq.sub_path, src_path := hashReq.src_path
              hash := h }, ctx)
    | none => (none, ctx.uncleanShutdown)
  | none => (none, ctx)

/-- threads.rs `hash`, loop body for one received element: when `clean` is
still true, handle the request and send the (possibly `None`) result on the
hash-result channel; when `clean` is already false the element is discarded
without a send.  The second component is `some sent` when a send happened. -/
def hashLoopBody (fs : FS) (ctx : RunCtx) (req : Option HashRequest) :
    RunCtx × Option (Option HashResult) :=
  if ctx.clean then
    let r := handle_hash_req fs ctx req
    (r.2, some r.1)
  else (ctx, none)

/-- api.rs `get_cli_read_write_paths`, slash stripping: remove one trailing
slash (`pop` of the final character), except from the root path itself
(`ends_with("/")` of the one-byte pattern is exactly "the last character is
a slash"). -/
def stripTrailingSlash (s : String) : String :=
  if s.data.getLast? = some '/' ∧ s.length > 1 then String.mk s.data.dropLast
  else s

/-- Accumulator state of the CLI argument scan. -/
structure CliState where
  read_paths : List String
  write_paths : List String
  set_read : Bool
  set_write : Bool
deriving DecidableEq, Repr

/-- Initial CLI state: both path lists empty, neither keyword seen. -/
def cliInit : CliState :=
  { read_paths := [], write_paths := [], set_read := false, set_write := false }

/-- api.rs `get_cli_read_write_paths`, main loop: the keywords switch the
accumulator; every other argument is stripped of a trailing slash and pushed
onto the list selected by the current flags (or dropped when neither flag is
set). -/
def cliScan (st : CliState) : List String → CliState
  | [] => st
  | s :: rest =>
    if s = "read" then
      cliScan { st with set_read := true, set_write := false } rest
    else if s = "write" then
      cliScan { st with set_read := false, set_write := true } rest
    else
      let s' := stripTrailingSlash s
      let st := if st.set_read then { st with read_paths := st.read_paths ++ [s'] } else st
      let st := if st.set_write then { st with write_paths := st.write_paths ++ [s'] } else st
      cliScan st rest

/-- api.rs `get_cli_read_write_paths`: scan the arguments, then fail when
either path list is empty. -/
def get_cli_read_write_paths (args : List String) :
    Except String (List String × List String) :=
  let st := cliScan cliInit args
  if st.read_paths.length < 1 then .error "must have at least one read path"
  else if st.write_paths.length < 1 then .error "must have at least one write path"
  else .ok (st.read_paths, st.write_paths)

/-- Model of one read or write tree on disk, as the discoverer observes it:
each node is a file, a directory with named children, or something else
(neither file nor directory).  Every node carries the size its metadata
reports (`none` models a metadata read error). -/
inductive FsTree where
  | file (meta : Option Nat)
  | dir (meta : Option Nat) (entries : List (String × FsTree))
  | other (meta : Option Nat)
deriving Repr

/-- Resolve a relative component list inside a tree. -/
def FsTree.lookup : FsTree → List String → Option FsTree
  | t, [] => some t
  | .dir _ es, c :: rest =>
    match es.find? (fun e => e.1 = c) with
    | some e => e.2.lookup rest
    | none => none
  | _, _ :: _ => none

/-- `Path::exists` in the tree model. -/
def FsTree.existsAt (t : FsTree) (p : List String) : Bool :=
  (t.lookup p).isSome

/-- `metadata().size()` in the tree model (`none` = metadata error). -/
def FsTree.metaAt (t : FsTree) (p : List String) : Option Nat :=
  match t.lookup p with
  | some (.file m) => m
  | some (.dir m _) => m
  | some (.other m) => m
  | none => none

/-- common.rs `all_files_match`, read-path loop: compare the sizes of every
existing source file; `none` is the early `return false` (size mismatch or
metadata error), otherwise the pair of the found flag and comparison size. -/
def amScanReads (sub : List String) :
    List (String × FsTree) → Bool → Nat → Option (Bool × Nat)
  | [], found, size => some (found, size)
  | rp :: rest, found, size =>
    if rp.2.existsAt sub then
      match rp.2.metaAt sub with
      | some m =>
        if !found then amScanReads sub rest true m
        else if m ≠ size then none
        else amScanReads sub rest found size
      | none => none
    else amScanReads sub rest found size

/-- common.rs `all_files_match`: all existing source files at the sub-path
share one size, and every destination exists with that same size.  (When no
source file exists at all the source panics; the discoverer only calls this
when at least one source holds a file, and the model returns false there.) -/
def all_files_match (read_paths write_paths : List (String × FsTree))
    (sub : List String) : Bool :=
  match amScanReads sub read_paths false 0 with
  | none => false
  | some (found, size) =>
    if !found then false
    else
      write_paths.all fun wp =>
        wp.2.existsAt sub &&
        match wp.2.metaAt sub with
        | some m => m == size
        | none => false

/-- discover.rs: the direntry names of `read_path/sub_path` when it is a
directory, with dot-prefixed names skipped. -/
def direntNamesOf (t : FsTree) (sub : List String) : List String :=
  match t.lookup sub with
  | some (.dir _ es) => (es.map Prod.fst).filter fun n => !n.startsWith "."
  | _ => []

/-- Insert into a lexicographically sorted list without duplicates (the
`BTreeSet<String>` model used for the union of direntry names). -/
def insertSortedDedup (s : String) : List String → List String
  | [] => [s]
  | x :: xs =>
    if strLt s x then s :: x :: xs
    else if s = x then x :: xs
    else x :: insertSortedDedup s xs

/-- The sorted union of the per-read-path direntry name lists. -/
def sortedUnion (ls : List (List String)) : List String :=
  ls.foldl (fun acc l => l.foldl (fun a n => insertSortedDedup n a) acc) []

/-- discover.rs, per-dirent classification loop: for each read path in index
order, push `some full_path` when the dirent is a file there and a `none`
placeholder otherwise, and accumulate the `is_file` / `is_dir` flags and the
count of actual files found. -/
def classifyDirent (read_paths : List (String × FsTree)) (sub : List String)
    (d : String) : Bool × Bool × Nat × List (Option FPath) :=
  read_paths.foldl
    (fun st rp =>
      let (isF, isD, cnt, acc) := st
      if d ∈ direntNamesOf rp.2 sub then
        match rp.2.lookup (sub ++ [d]) with
        | some (.dir _ _) => (isF, true, cnt, acc ++ [none])
        | some (.file _) =>
          (true, isD, cnt + 1, acc ++ [some ⟨rp.1, sub ++ [d]⟩])
        | some (.other _) => (isF, isD, cnt, acc ++ [none])
        | none => (isF, isD, cnt, acc ++ [none])
      else (isF, isD, cnt, acc ++ [none]))
    (false, false, 0, [])

/-- One observable enqueue of the discoverer: a (possibly placeholder) hash
request on channel `i`, a copy-to-dest request, or an ordering token. -/
inductive DiscEvent where
  | hashReq (i : Nat) (req : Option HashRequest)
  | copyToDest (req : CopyToDestRequest)
  | xfer (t : TransferRequest)
deriving DecidableEq, Repr

/-- Output of one emission helper of the discoverer: the events sent, the
next value of the cooperative-check counter, and whether the control flow
continues (`ok = false` is the source's early `return Ok(())` on observing
`running == false`). -/
structure EmitOut where
  events : List DiscEvent
  step : Nat
  ok : Bool
deriving Repr

/-- discover.rs, merge branch: send one element per read path onto the hash
request channels, in index order, checking `running` before every send.
`running` is an oracle indexed by the check counter, modelling the flag
another thread may clear at any moment. -/
def sendHashReqs (running : Nat → Bool) (subPlus : List String) :
    Nat → Nat → List (Option FPath) → EmitOut
  | step, _, [] => { events := [], step := step, ok := true }
  | step, i, ph :: rest =>
    if running step then
      let ev : DiscEvent :=
        .hashReq i (ph.map fun p => { sub_path := subPlus, src_path := p })
      let o := sendHashReqs running subPlus (step + 1) (i + 1) rest
      { o with events := ev :: o.events }
    else { events := [], step := step + 1, ok := false }

/-- discover.rs, copy branch: walk the per-read-path findings in index order,
checking `running` before each; at the first file found send the copy-to-dest
request immediately followed by the `Copy` ordering token, then stop. -/
def sendCopyUnit (running : Nat → Bool) (subPlus : List String) :
    Nat → List (Option FPath) → EmitOut
  | step, [] => { events := [], step := step, ok := true }
  | step, ph :: rest =>
    if running step then
      match ph with
      | some p =>
        { events := [.copyToDest { sub_path := subPlus, src_path := p },
                     .xfer .Copy]
          step := step + 1, ok := true }
      | none => sendCopyUnit running subPlus (step + 1) rest
    else { events := [], step := step + 1, ok := false }

/-- discover.rs, file case: with more than one actual file, stream the hash
requests and (after one more `running` check) the `Merge` token; otherwise
the copy-to-dest unit. -/
def discoverFileUnit (running : Nat → Bool) (step : Nat)
    (subPlus : List String) (phs : List (Option FPath)) (cnt : Nat) :
    EmitOut :=
  if cnt > 1 then
    let o := sendHashReqs running subPlus step 0 phs
    if o.ok then
      if running o.step then
        { events := o.events ++ [.xfer .Merge], step := o.step + 1, ok := true }
      else { events := o.events, step := o.step + 1, ok := false }
    else o
  else sendCopyUnit running subPlus step phs

/-- Output of the discoverer: the events sent, the final check counter, and
the error carried by the `Result` (classification failures). -/
structure DiscOut where
  events : List DiscEvent
  step : Nat
  err : Option String
deriving Repr

mutual

/-- discover.rs `__discover_files`: check `running`, collect the sorted union
of direntry names over the read paths at `sub`, and process them.  `fuel`
bounds the recursion depth (the real tree walk terminates because the trees
are finite). -/
def discoverRec (running : Nat → Bool) (rps wps : List (String × FsTree)) :
    Nat → Nat → List String → DiscOut
  | 0, step, _ => { events := [], step := step, err := none }
  | fuel + 1, step, sub =>
    if running step then
      discoverLoop running rps wps fuel sub (step + 1)
        (sortedUnion (rps.map fun rp => direntNamesOf rp.2 sub))
    else { events := [], step := step + 1, err := none }
termination_by fuel _ _ => (fuel, 0)

/-- discover.rs, dirent loop: classify each union direntry; fail on a
both-file-and-directory or neither classification; for a file either skip
(metadata short-circuit) or emit its unit; for a directory recurse; an early
cooperative stop inside an emission ends the walk without error. -/
def discoverLoop (running : Nat → Bool) (rps wps : List (String × FsTree)) :
    Nat → List String → Nat → List String → DiscOut
  | _, _, step, [] => { events := [], step := step, err := none }
  | fuel, sub, step, d :: ds =>
    let subPlus := sub ++ [d]
    let (isF, isD, cnt, phs) := classifyDirent rps sub d
    if isF && isD then
      { events := [], step := step
        err := some "path must be a file or directory, not both" }
    else if !isF && !isD then
      { events := [], step := step
        err := some "path must be a file or directory" }
    else
      let fileOut : EmitOut :=
        if isF then
          if all_files_match rps wps subPlus then
            { events := [], step := step, ok := true }
          else discoverFileUnit running step subPlus phs cnt
        else { events := [], step := step, ok := true }
      if fileOut.ok then
        let dirOut : DiscOut :=
          if isD then discoverRec running rps wps fuel fileOut.step subPlus
          else { events := [], step := fileOut.step, err := none }
        match dirOut.err with
        | some e =>
          { events := fileOut.events ++ dirOut.events, step := dirOut.step
            err := some e }
        | none =>
          let restOut := discoverLoop running rps wps fuel sub dirOut.step ds
          { events := fileOut.events ++ dirOut.events ++ restOut.events
            step := restOut.step, err := restOut.err }
      else { events := fileOut.events, step := fileOut.step, err := none }
termination_by fuel _ _ ds => (fuel, ds.length + 1)

end

/-! ## Theorems -/

/-- C6: `has_write_merge_conflict(write_paths, src_path, sub_path)` returns
true if and only if either the source's metadata cannot be read, or some
write path whose `write_path/sub_path` exists has a length different from
the source's length or unreadable metadata; write paths at which the
sub-path does not exist never cause a conflict, and all error cases return
true (fail-closed). -/
theorem c6_has_write_merge_conflict_iff (fs : FS) (wps : List String)
    (src : FPath) (sub : List String) :
    has_write_merge_conflict fs wps src sub = true ↔
      fs.meta src = none ∨
      ∃ wp ∈ wps, fs.ex ⟨wp, sub⟩ = true ∧
        (fs.meta ⟨wp, sub⟩ = none ∨
         ∃ sl dl, fs.meta src = some sl ∧ fs.meta ⟨wp, sub⟩ = some dl ∧
           sl ≠ dl) := by
  unfold has_write_merge_conflict
  cases hsrc : fs.meta src with
  | none => simp [hsrc]
  | some sl =>
    simp only [hsrc, List.any_eq_true, Option.some.injEq, reduceCtorEq,
      false_or]
    constructor
    · rintro ⟨wp, hmem, hpred⟩
      refine ⟨wp, hmem, ?_⟩
      by_cases hex : fs.ex ⟨wp, sub⟩
      · refine ⟨hex, ?_⟩
        cases hdst : fs.meta ⟨wp, sub⟩ with
        | none => exact Or.inl rfl
        | some dl =>
          refine Or.inr ⟨sl, dl, rfl, rfl, ?_⟩
          simp only [hex, if_true, hdst, bne_iff_ne, ne_eq] at hpred
          exact hpred
      · simp [hex] at hpred
    · rintro ⟨wp, hmem, hex, hrest⟩
      refine ⟨wp, hmem, ?_⟩
      simp only [hex, if_true]
      rcases hrest with hnone | ⟨sl', dl, hsl, hdl, hne⟩
      · simp [hnone]
      · rw [hdl]
        cases hsl
        simpa [bne_iff_ne] using hne

/-- Arguments seen while neither accumulator flag is set are dropped. -/
theorem cliScan_noflags_append (rp wp : List String) (pre rest : List String)
    (hfree : ∀ s ∈ pre, s ≠ "read" ∧ s ≠ "write") :
    cliScan ⟨rp, wp, false, false⟩ (pre ++ rest) =
      cliScan ⟨rp, wp, false, false⟩ rest := by
  induction pre with
  | nil => rfl
  | cons s pre' ih =>
    have hs := hfree s (by simp)
    have hpre' : ∀ x ∈ pre', x ≠ "read" ∧ x ≠ "write" := fun x hx =>
      hfree x (by simp [hx])
    rw [List.cons_append]
    conv_lhs => unfold cliScan
    simp only [hs.1, hs.2, if_false, Bool.false_eq_true]
    exact ih hpre'

/-- With the read flag set and the write flag clear, a keyword-free argument
run appends its stripped elements to the read list. -/
theorem cliScan_readmode (rp wp : List String) (xs : List String)
    (hfree : ∀ s ∈ xs, s ≠ "read" ∧ s ≠ "write") :
    cliScan ⟨rp, wp, true, false⟩ xs =
      ⟨rp ++ xs.map stripTrailingSlash, wp, true, false⟩ := by
  induction xs generalizing rp with
  | nil => simp [cliScan]
  | cons s xs' ih =>
    have hs := hfree s (by simp)
    have hxs' : ∀ x ∈ xs', x ≠ "read" ∧ x ≠ "write" := fun x hx =>
      hfree x (by simp [hx])
    unfold cliScan
    simp only [hs.1, hs.2, if_false, Bool.false_eq_true, if_true]
    rw [ih _ hxs']
    simp

/-- With the write flag set and the read flag clear, a keyword-free argument
run appends its stripped elements to the write list. -/
theorem cliScan_writemode (rp wp : List String) (xs : List String)
    (hfree : ∀ s ∈ xs, s ≠ "read" ∧ s ≠ "write") :
    cliScan ⟨rp, wp, false, true⟩ xs =
      ⟨rp, wp ++ xs.map stripTrailingSlash, false, true⟩ := by
  induction xs generalizing wp with
  | nil => simp [cliScan]
  | cons s xs' ih =>
    have hs := hfree s (by simp)
    have hxs' : ∀ x ∈ xs', x ≠ "read" ∧ x ≠ "write" := fun x hx =>
      hfree x (by simp [hx])
    unfold cliScan
    simp only [hs.1, hs.2, if_false, Bool.false_eq_true, if_true]
    rw [ih _ hxs']
    simp

/-- C9: `get_cli_read_write_paths` silently ignores any argument that appears
before the first `read` or `write` keyword (it is added to neither path
list, with no error), the keywords may appear multiple times and accumulate
into the current list, and the function returns an error exactly when the
resulting read list or write list is empty. -/
theorem c9_get_cli_read_write_paths_spec :
    (∀ pre rest, (∀ s ∈ pre, s ≠ "read" ∧ s ≠ "write") →
      get_cli_read_write_paths (pre ++ rest) = get_cli_read_write_paths rest) ∧
    (∀ st xs, (∀ s ∈ xs, s ≠ "read" ∧ s ≠ "write") →
      cliScan st ("read" :: xs) =
        ⟨st.read_paths ++ xs.map stripTrailingSlash, st.write_paths,
          true, false⟩) ∧
    (∀ st xs, (∀ s ∈ xs, s ≠ "read" ∧ s ≠ "write") →
      cliScan st ("write" :: xs) =
        ⟨st.read_paths, st.write_paths ++ xs.map stripTrailingSlash,
          false, true⟩) ∧
    (∀ args, (∃ e, get_cli_read_write_paths args = Except.error e) ↔
      ((cliScan cliInit args).read_paths = [] ∨
       (cliScan cliInit args).write_paths = [])) := by
  refine ⟨?_, ?_, ?_, ?_⟩
  · intro pre rest hfree
    unfold get_cli_read_write_paths cliInit
    rw [cliScan_noflags_append [] [] pre rest hfree]
  · intro st xs hfree
    obtain ⟨rp, wp, sr, sw⟩ := st
    show cliScan _ _ = _
    unfold cliScan
    simp only [if_pos rfl]
    exact cliScan_readmode rp wp xs hfree
  · intro st xs hfree
    obtain ⟨rp, wp, sr, sw⟩ := st
    show cliScan _ _ = _
    unfold cliScan
    rw [if_neg (by decide : ¬("write" = "read")), if_pos rfl]
    exact cliScan_writemode rp wp xs hfree
  · intro args
    unfold get_cli_read_write_paths
    by_cases h1 : (cliScan cliInit args).read_paths = []
    · simp [h1]
    · by_cases h2 : (cliScan cliInit args).write_paths = []
      · simp [h1, h2, List.length_eq_zero]
      · simp [h1, h2, List.length_eq_zero]

/-- Witness for C9 at concrete arguments: a stray leading argument is
ignored, `read`/`write` runs accumulate with slash stripping, and the
error condition is the emptiness of a path list. -/
theorem c9_witness :
    get_cli_read_write_paths (["junk"] ++ ["read", "a/", "write", "b"]) =
      get_cli_read_write_paths ["read", "a/", "write", "b"] ∧
    cliScan cliInit ("read" :: ["a/"]) = ⟨["a"], [], true, false⟩ ∧
    cliScan cliInit ("write" :: ["b"]) = ⟨[], ["b"], false, true⟩ ∧
    ((∃ e, get_cli_read_write_paths ["read", "a"] = Except.error e) ↔
      ((cliScan cliInit ["read", "a"]).read_paths = [] ∨
       (cliScan cliInit ["read", "a"]).write_paths = [])) :=
  ⟨c9_get_cli_read_write_paths_spec.1 ["junk"] ["read", "a/", "write", "b"]
      (by decide),
   (c9_get_cli_read_write_paths_spec.2.1 cliInit ["a/"] (by decide)).trans
      (by decide),
   (c9_get_cli_read_write_paths_spec.2.2.1 cliInit ["b"] (by decide)).trans
      (by decide),
   c9_get_cli_read_write_paths_spec.2.2.2 ["read", "a"]⟩

/-- C10: when a hash worker's `hash_file` call fails for a received
`Some(HashRequest)` while `clean` is true, the worker sets `clean` and
`running` to false but still sends a `None` placeholder on its hash-result
channel, so one result element is emitted for every request it processed; a
`None` is likewise sent for every `None` request received while clean. -/
theorem c10_hash_worker_placeholder (fs : FS) (ctx : RunCtx)
    (hclean : ctx.clean = true) :
    (∀ req, (hashLoopBody fs ctx req).2 =
      some (handle_hash_req fs ctx req).1) ∧
    (∀ hr, fs.hashFile hr.src_path = none →
      hashLoopBody fs ctx (some hr) =
        ({ running := false, clean := false }, some none)) ∧
    hashLoopBody fs ctx none = (ctx, some none) := by
  refine ⟨?_, ?_, ?_⟩
  · intro req
    simp [hashLoopBody, hclean]
  · intro hr hfail
    simp [hashLoopBody, hclean, handle_hash_req, hfail, RunCtx.uncleanShutdown]
  · simp [hashLoopBody, hclean, handle_hash_req]

/-- A filesystem oracle on which every operation fails. -/
def fsAllFail : FS :=
  { ex := fun _ => false, meta := fun _ => none, hashFile := fun _ => none }

/-- Witness for C10: on an oracle whose hashing always fails, a received
request yields an unclean shutdown plus a `None` placeholder send, and a
`None` request yields a `None` placeholder send. -/
theorem c10_witness :
    hashLoopBody fsAllFail { running := true, clean := true }
        (some { sub_path := ["a"], src_path := ⟨"A", ["a"]⟩ }) =
      ({ running := false, clean := false }, some none) ∧
    hashLoopBody fsAllFail { running := true, clean := true } none =
      ({ running := true, clean := true }, some none) :=
  ⟨(c10_hash_worker_placeholder fsAllFail { running := true, clean := true }
      rfl).2.1 { sub_path := ["a"], src_path := ⟨"A", ["a"]⟩ } rfl,
   (c10_hash_worker_placeholder fsAllFail { running := true, clean := true }
      rfl).2.2⟩

/-- `Ok` is a left identity of the result ratchet. -/
theorem mmr_ok_left (a : MergeResult) : max_merge_result .Ok a = a := by
  cases a <;> rfl

/-- `Ok` is a right identity of the result ratchet. -/
theorem mmr_ok_right (a : MergeResult) : max_merge_result a .Ok = a := by
  cases a <;> rfl

/-- The result ratchet always returns one of its arguments. -/
theorem mmr_choice (a b : MergeResult) :
    max_merge_result a b = a ∨ max_merge_result a b = b := by
  cases a <;> cases b <;> simp [max_merge_result]

/-- The result ratchet is associative. -/
theorem mmr_assoc (a b c : MergeResult) :
    max_merge_result (max_merge_result a b) c =
      max_merge_result a (max_merge_result b c) := by
  cases a <;> cases b <;> cases c <;> rfl

/-- The result ratchet computes the maximum of the severity encoding. -/
theorem mmr_toNat (a b : MergeResult) :
    (max_merge_result a b).toNat = Nat.max a.toNat b.toNat := by
  cases a <;> cases b <;> rfl

/-- Folding the ratchet from any seed equals ratcheting the seed against the
fold from `Ok`. -/
theorem foldl_mmr (l : List MergeResult) (a : MergeResult) :
    l.foldl max_merge_result a =
      max_merge_result a (l.foldl max_merge_result .Ok) := by
  induction l generalizing a with
  | nil => simp [List.foldl, mmr_ok_right]
  | cons b l ih =>
    simp only [List.foldl, mmr_ok_left]
    rw [ih (max_merge_result a b), ih b, mmr_assoc]

/-- C5: the top-level `copy()` returns `MergeResult::Error` whenever the
shared clean flag is false at the end of the run, and otherwise returns the
arbiter's result, which equals the supremum (under the total order
Ok < Conflict < Error computed by `max_merge_result`) of the
per-transfer-request results accumulated by the merge thread. -/
theorem c5_copy_result_supremum :
    (∀ r, copyFinalResult false r = .Error) ∧
    (∀ r, copyFinalResult true r = r) ∧
    (∀ a b, (max_merge_result a b).toNat = Nat.max a.toNat b.toNat) ∧
    (∀ fs wps st ts,
      (mergeRun fs wps st ts).result =
        (mergeRun fs wps st ts).unitResults.foldl max_merge_result .Ok ∧
      (∀ r ∈ (mergeRun fs wps st ts).unitResults,
        r.toNat ≤ (mergeRun fs wps st ts).result.toNat) ∧
      ((mergeRun fs wps st ts).result ∈ (mergeRun fs wps st ts).unitResults ∨
        (mergeRun fs wps st ts).result = .Ok)) := by
  refine ⟨fun r => rfl, fun r => rfl, mmr_toNat, ?_⟩
  intro fs wps st ts
  induction ts generalizing st with
  | nil => exact ⟨rfl, by simp [mergeRun], Or.inr rfl⟩
  | cons t ts ih =>
    by_cases hstop : (!st.ctx.running && !st.ctx.clean) = true
    · constructor
      · simp [mergeRun, hstop]
      · constructor
        · intro r hr
          simp [mergeRun, hstop] at hr
        · right
          simp [mergeRun, hstop]
    · have hres : (mergeRun fs wps st (t :: ts)).result =
          max_merge_result (handle_xfer_req fs wps st t).1
            (mergeRun fs wps (handle_xfer_req fs wps st t).2.1 ts).result := by
        simp [mergeRun, hstop]
      have hunits : (mergeRun fs wps st (t :: ts)).unitResults =
          (handle_xfer_req fs wps st t).1 ::
            (mergeRun fs wps (handle_xfer_req fs wps st t).2.1 ts).unitResults := by
        simp [mergeRun, hstop]
      obtain ⟨ih1, ih2, ih3⟩ := ih (handle_xfer_req fs wps st t).2.1
      refine ⟨?_, ?_, ?_⟩
      · rw [hres, hunits, List.foldl_cons, mmr_ok_left, foldl_mmr, ← ih1]
      · intro r hr
        rw [hunits] at hr
        rw [hres, mmr_toNat]
        rcases List.mem_cons.mp hr with h | h
        · subst h
          exact Nat.le_max_left _ _
        · exact le_trans (ih2 r h) (Nat.le_max_right _ _)
      · rw [hres, hunits]
        rcases mmr_choice (handle_xfer_req fs wps st t).1
            (mergeRun fs wps (handle_xfer_req fs wps st t).2.1 ts).result with
          h | h
        · rw [h]
          exact Or.inl (List.mem_cons_self _ _)
        · rw [h]
          rcases ih3 with hm | hok
          · exact Or.inl (List.mem_cons_of_mem _ hm)
          · rw [hok]
            exact Or.inr rfl

/-- Witness for C5 at a concrete run: one `Copy` token against an empty
copy-to-dest queue yields an `Error` unit result, and the theorem's bounds
apply to it. -/
theorem c5_witness :
    copyFinalResult false .Ok = .Error ∧
    copyFinalResult true .Conflict = .Conflict ∧
    (max_merge_result .Conflict .Error).toNat =
      Nat.max (MergeResult.toNat .Conflict) (MergeResult.toNat .Error) ∧
    MergeResult.toNat .Error ≤
      (mergeRun fsAllFail []
        ⟨{ running := true, clean := true }, [], []⟩ [.Copy]).result.toNat :=
  ⟨c5_copy_result_supremum.1 .Ok,
   c5_copy_result_supremum.2.1 .Conflict,
   c5_copy_result_supremum.2.2.1 .Conflict .Error,
   (c5_copy_result_supremum.2.2.2 fsAllFail []
      ⟨{ running := true, clean := true }, [], []⟩ [.Copy]).2.1 .Error
      (by decide)⟩

/-- C8: for every `CopyFileRequest` whose `dest_path` already exists, the
copy worker returns without creating a temp file, writing any data, changing
any metadata, or setting the clean flag false (empty action trace, context
unchanged); hence handling the same `CopyFileRequest` a second time after a
successful first handling is a no-op (idempotence). -/
theorem c8_handle_copy_idempotent :
    (∀ env ctx req, env.ex req.dest_path = true →
      handle_copy env ctx req = (ctx, [])) ∧
    (∀ env ctx req tmp,
      env.ex req.dest_path = false →
      req.dest_path.comps ≠ [] →
      (env.ex ⟨req.dest_path.root, req.dest_path.comps.dropLast⟩ = true ∨
        env.mkdirOk = true) →
      env.mkstempRes = some tmp →
      env.openSrcOk = true → env.copyFileOk = true → env.copyTimeOk = true →
      env.chmodOk = true → env.renameOk = true →
      (handle_copy env ctx req).1 = ctx ∧
      applyActions env.ex (handle_copy env ctx req).2 req.dest_path = true ∧
      handle_copy
        { env with ex := applyActions env.ex (handle_copy env ctx req).2 }
        ctx req = (ctx, [])) := by
  have partA : ∀ env ctx req, env.ex req.dest_path = true →
      handle_copy env ctx req = (ctx, []) := by
    intro env ctx req h
    simp [handle_copy, h]
  refine ⟨partA, ?_⟩
  intro env ctx req tmp hne hc hmk hstemp hopen hcopy htime hchmod hrename
  obtain ⟨src, dest⟩ := req
  obtain ⟨dr, dc⟩ := dest
  simp only at hne hc hmk ⊢
  have hrun : handle_copy env ctx ⟨src, ⟨dr, dc⟩⟩ =
      (ctx,
       (if env.ex ⟨dr, dc.dropLast⟩ then []
        else [.mkdirP ⟨dr, dc.dropLast⟩]) ++
       [.mkstempAct ⟨dr, dc.dropLast⟩ tmp, .copyData src tmp,
        .copyTimeMeta src tmp, .chmodAct tmp, .renameAct tmp ⟨dr, dc⟩]) := by
    cases dc with
    | nil => exact absurd rfl hc
    | cons c cs =>
      by_cases hex : env.ex ⟨dr, (c :: cs).dropLast⟩
      · simp [handle_copy, FPath.parent, hne, hex, hstemp, hopen, hcopy,
          htime, hchmod, hrename]
      · have hmkdir : env.mkdirOk = true := by
          rcases hmk with h | h
          · exact absurd h hex
          · exact h
        simp [handle_copy, FPath.parent, hne, hex, hmkdir, hstemp, hopen,
          hcopy, htime, hchmod, hrename]
  have hexists : applyActions env.ex
      (handle_copy env ctx ⟨src, ⟨dr, dc⟩⟩).2 ⟨dr, dc⟩ = true := by
    rw [hrun]
    simp only [applyActions]
    rw [show (if env.ex ⟨dr, dc.dropLast⟩ then ([] : List CopyAction)
        else [.mkdirP ⟨dr, dc.dropLast⟩]) ++
       [.mkstempAct ⟨dr, dc.dropLast⟩ tmp, .copyData src tmp,
        .copyTimeMeta src tmp, .chmodAct tmp, .renameAct tmp ⟨dr, dc⟩] =
      ((if env.ex ⟨dr, dc.dropLast⟩ then ([] : List CopyAction)
        else [.mkdirP ⟨dr, dc.dropLast⟩]) ++
       [.mkstempAct ⟨dr, dc.dropLast⟩ tmp, .copyData src tmp,
        .copyTimeMeta src tmp, .chmodAct tmp]) ++ [.renameAct tmp ⟨dr, dc⟩]
      by simp]
    rw [List.foldl_append]
    simp [applyAction]
  refine ⟨by rw [hrun], hexists, ?_⟩
  exact partA _ ctx ⟨src, ⟨dr, dc⟩⟩ hexists

/-- C4 (amended): in the copy worker every failure among temp-file creation,
copying source data, copying time metadata, chmod and atomic rename sets the
shared clean flag to false, but a removal of the temp file is attempted only
when opening the source file for reading fails; the listed failures return
leaving the temp file in place. -/
theorem c4_copy_failure_cleanup (env : CopyEnv) (ctx : RunCtx)
    (req : CopyFileRequest)
    (hne : env.ex req.dest_path = false)
    (hc : req.dest_path.comps ≠ [])
    (hmk : env.ex ⟨req.dest_path.root, req.dest_path.comps.dropLast⟩ = true ∨
      env.mkdirOk = true) :
    (¬(env.mkstempRes ≠ none ∧ env.openSrcOk = true ∧
        env.copyFileOk = true ∧ env.copyTimeOk = true ∧
        env.chmodOk = true ∧ env.renameOk = true) →
      (handle_copy env ctx req).1.clean = false) ∧
    (∀ p, CopyAction.removeFile p ∈ (handle_copy env ctx req).2 ↔
      (env.mkstempRes = some p ∧ env.openSrcOk = false)) := by
  obtain ⟨src, dest⟩ := req
  obtain ⟨dr, dc⟩ := dest
  simp only at hne hc hmk ⊢
  cases dc with
  | nil => exact absurd rfl hc
  | cons c cs =>
    have hcond : (!env.ex ⟨dr, (c :: cs).dropLast⟩ && !env.mkdirOk) = false := by
      rcases hmk with h | h <;> simp [h]
    have hnomem : ∀ p : FPath, CopyAction.removeFile p ∉
        (if env.ex ⟨dr, (c :: cs).dropLast⟩ then ([] : List CopyAction)
         else [.mkdirP ⟨dr, (c :: cs).dropLast⟩]) := by
      intro p
      split <;> simp
    cases hstemp : env.mkstempRes with
    | none =>
      constructor
      · intro _
        simp [handle_copy, FPath.parent, hne, hcond, hstemp,
          RunCtx.uncleanShutdown]
      · intro p
        simp [handle_copy, FPath.parent, hne, hcond, hstemp, hnomem p]
    | some tmp =>
      cases hopen : env.openSrcOk with
      | false =>
        constructor
        · intro _
          simp [handle_copy, FPath.parent, hne, hcond, hstemp, hopen,
            RunCtx.uncleanShutdown]
        · intro p
          simp only [handle_copy, FPath.parent, hne, hcond, hstemp, hopen]
          simp [hnomem p]
          exact ⟨fun h => h.symm, fun h => h.symm⟩
      | true =>
        cases hcopy : env.copyFileOk with
        | false =>
          constructor
          · intro _
            simp [handle_copy, FPath.parent, hne, hcond, hstemp, hopen,
              hcopy, RunCtx.uncleanShutdown]
          · intro p
            simp [handle_copy, FPath.parent, hne, hcond, hstemp, hopen,
              hcopy, hnomem p]
        | true =>
          cases htime : env.copyTimeOk with
          | false =>
            constructor
            · intro _
              simp [handle_copy, FPath.parent, hne, hcond, hstemp, hopen,
                hcopy, htime, RunCtx.uncleanShutdown]
            · intro p
              simp [handle_copy, FPath.parent, hne, hcond, hstemp, hopen,
                hcopy, htime, hnomem p]
          | true =>
            cases hchmod : env.chmodOk with
            | false =>
              constructor
              · intro _
                simp [handle_copy, FPath.parent, hne, hcond, hstemp, hopen,
                  hcopy, htime, hchmod, RunCtx.uncleanShutdown]
              · intro p
                simp [handle_copy, FPath.parent, hne, hcond, hstemp, hopen,
                  hcopy, htime, hchmod, hnomem p]
            | true =>
              cases hrename : env.renameOk with
              | false =>
                constructor
                · intro _
                  simp [handle_copy, FPath.parent, hne, hcond, hstemp, hopen,
                    hcopy, htime, hchmod, hrename, RunCtx.uncleanShutdown]
                · intro p
                  simp [handle_copy, FPath.parent, hne, hcond, hstemp, hopen,
                    hcopy, htime, hchmod, hrename, hnomem p]
              | true =>
                constructor
                · intro hno
                  exact absurd ⟨by simp, rfl, rfl, rfl, rfl, rfl⟩ hno
                · intro p
                  simp [handle_copy, FPath.parent, hne, hcond, hstemp, hopen,
                    hcopy, htime, hchmod, hrename, hnomem p]

/-- A copy-worker environment for a successful copy: the destination parent
directory exists, the destination file does not, and every operation
succeeds. -/
def c8Env : CopyEnv :=
  { ex := fun p => p == (⟨"C", []⟩ : FPath)
    mkdirOk := true
    mkstempRes := some ⟨"C", ["__tmp_dit_123456"]⟩
    openSrcOk := true, copyFileOk := true, copyTimeOk := true
    chmodOk := true, renameOk := true }

/-- Witness for C8: on an existing destination the handler is a no-op, and
after one successful copy the destination exists and a second handling of
the same request is a no-op. -/
theorem c8_witness :
    handle_copy { c8Env with ex := fun _ => true }
        { running := true, clean := true }
        { src_path := ⟨"A", ["q"]⟩, dest_path := ⟨"C", ["q"]⟩ } =
      ({ running := true, clean := true }, []) ∧
    (handle_copy c8Env { running := true, clean := true }
        { src_path := ⟨"A", ["q"]⟩, dest_path := ⟨"C", ["q"]⟩ }).1 =
      { running := true, clean := true } ∧
    applyActions c8Env.ex
      (handle_copy c8Env { running := true, clean := true }
        { src_path := ⟨"A", ["q"]⟩, dest_path := ⟨"C", ["q"]⟩ }).2
      ⟨"C", ["q"]⟩ = true ∧
    handle_copy
      { c8Env with
        ex := applyActions c8Env.ex
          (handle_copy c8Env { running := true, clean := true }
            { src_path := ⟨"A", ["q"]⟩, dest_path := ⟨"C", ["q"]⟩ }).2 }
      { running := true, clean := true }
      { src_path := ⟨"A", ["q"]⟩, dest_path := ⟨"C", ["q"]⟩ } =
      ({ running := true, clean := true }, []) :=
  ⟨c8_handle_copy_idempotent.1 _ _ _ rfl,
   (c8_handle_copy_idempotent.2 c8Env { running := true, clean := true }
      { src_path := ⟨"A", ["q"]⟩, dest_path := ⟨"C", ["q"]⟩ }
      ⟨"C", ["__tmp_dit_123456"]⟩ (by decide) (by decide)
      (Or.inl (by decide)) rfl rfl rfl rfl rfl rfl).1,
   (c8_handle_copy_idempotent.2 c8Env { running := true, clean := true }
      { src_path := ⟨"A", ["q"]⟩, dest_path := ⟨"C", ["q"]⟩ }
      ⟨"C", ["__tmp_dit_123456"]⟩ (by decide) (by decide)
      (Or.inl (by decide)) rfl rfl rfl rfl rfl rfl).2.1,
   (c8_handle_copy_idempotent.2 c8Env { running := true, clean := true }
      { src_path := ⟨"A", ["q"]⟩, dest_path := ⟨"C", ["q"]⟩ }
      ⟨"C", ["__tmp_dit_123456"]⟩ (by decide) (by decide)
      (Or.inl (by decide)) rfl rfl rfl rfl rfl rfl).2.2⟩

/-- A copy-worker environment in which streaming the source data into the
temp file fails and everything else succeeds. -/
def c4Env : CopyEnv :=
  { ex := fun p => p == (⟨"C", []⟩ : FPath)
    mkdirOk := true
    mkstempRes := some ⟨"C", ["__tmp_dit_123456"]⟩
    openSrcOk := true, copyFileOk := false, copyTimeOk := true
    chmodOk := true, renameOk := true }

/-- Counterexample to C4 as stated: when copying the source data into the
temp file fails, the worker sets the clean flag false and returns, but its
action trace contains no removal of the temp file — no cleanup attempt is
made for this failure. -/
theorem c4_counterexample :
    handle_copy c4Env { running := true, clean := true }
        { src_path := ⟨"A", ["q"]⟩, dest_path := ⟨"C", ["q"]⟩ } =
      ({ running := false, clean := false },
       [.mkstempAct ⟨"C", []⟩ ⟨"C", ["__tmp_dit_123456"]⟩,
        .copyData ⟨"A", ["q"]⟩ ⟨"C", ["__tmp_dit_123456"]⟩]) := by
  decide

/-- Witness for the amended C4 at the concrete copy-failure environment:
the clean flag ends false and the removal-iff characterisation applies. -/
theorem c4_witness :
    (handle_copy c4Env { running := true, clean := true }
        { src_path := ⟨"A", ["q"]⟩, dest_path := ⟨"C", ["q"]⟩ }).1.clean =
      false ∧
    (CopyAction.removeFile ⟨"C", ["__tmp_dit_123456"]⟩ ∈
        (handle_copy c4Env { running := true, clean := true }
          { src_path := ⟨"A", ["q"]⟩, dest_path := ⟨"C", ["q"]⟩ }).2 ↔
      (c4Env.mkstempRes = some ⟨"C", ["__tmp_dit_123456"]⟩ ∧
        c4Env.openSrcOk = false)) :=
  ⟨(c4_copy_failure_cleanup c4Env { running := true, clean := true }
      { src_path := ⟨"A", ["q"]⟩, dest_path := ⟨"C", ["q"]⟩ } (by decide)
      (by decide) (Or.inl (by decide))).1 (by decide),
   (c4_copy_failure_cleanup c4Env { running := true, clean := true }
      { src_path := ⟨"A", ["q"]⟩, dest_path := ⟨"C", ["q"]⟩ } (by decide)
      (by decide) (Or.inl (by decide))).2 ⟨"C", ["__tmp_dit_123456"]⟩⟩

/-- The scenario-S4 filesystem oracle: one source file `A/q` of 4 bytes with
hash `hA`, and a pre-existing destination file `C/q` of 5 bytes. -/
def s4FS : FS :=
  { ex := fun p => p == (⟨"C", ["q"]⟩ : FPath)
    meta := fun p =>
      if p = ⟨"A", ["q"]⟩ then some 4
      else if p = ⟨"C", ["q"]⟩ then some 5
      else none
    hashFile := fun p => if p = ⟨"A", ["q"]⟩ then some "hA" else none }

/-- C1 (code bug): `handle_copy_to_dest` never returns `Conflict` — its
write-conflict branch enqueues the `WRITE_MERGE_CONFLICT`-named copy request
for every write path but then falls through to `MergeResult::Ok`, unlike the
analogous branch of `handle_hash_merge`.  At the scenario-S4 input the write
merge conflict is detected and the conflict-named request is enqueued, yet
the unit's result is `Ok` (so the run exits 0, not 2). -/
theorem c1_copy_to_dest_write_conflict_result :
    (∀ fs ctx wps q, (handle_copy_to_dest fs ctx wps q).result ≠ .Conflict) ∧
    has_write_merge_conflict s4FS ["C"] ⟨"A", ["q"]⟩ ["q"] = true ∧
    handle_copy_to_dest s4FS { running := true, clean := true } ["C"]
        [{ sub_path := ["q"], src_path := ⟨"A", ["q"]⟩ }] =
      { result := .Ok
        ctx := { running := true, clean := true }
        queue := []
        sends := [(0, { src_path := ⟨"A", ["q"]⟩
                        dest_path :=
                          ⟨"C", ["q.__WRITE_MERGE_CONFLICT__hA"]⟩ })] } := by
  refine ⟨?_, by decide, by decide⟩
  intro fs ctx wps q
  cases q with
  | nil => simp [handle_copy_to_dest]
  | cons r rest => simp [handle_copy_to_dest]

/-- Characters strictly before the final dot (spec-side formalisation of
"the file name before its last `.`"). -/
def beforeLastDot : List Char → List Char
  | [] => []
  | c :: rest => if '.' ∈ rest then c :: beforeLastDot rest else []

/-- Characters strictly after the final dot (spec-side formalisation of the
extension). -/
def afterLastDot : List Char → List Char
  | [] => []
  | _ :: rest => if '.' ∈ rest then afterLastDot rest else rest

/-- Spec-side: does the name have an extension? (a dot beyond a possible
leading dot — "no `.` or it only leads" is the negation). -/
def specHasExt (name : String) : Bool :=
  decide ('.' ∈ name.data.drop 1)

/-- Spec-side stem: the file name before its last dot, or the whole name
when there is no dot or it only leads. -/
def specStem (name : String) : String :=
  if specHasExt name then String.mk (beforeLastDot name.data) else name

/-- Spec-side `.<ext>` suffix: appended only when an extension exists. -/
def specExtSuffix (name : String) : String :=
  if specHasExt name then "." ++ String.mk (afterLastDot name.data) else ""

/-- Spec-side conflict file name `<stem>.__<TAG>__<hash>.<ext>`. -/
def specConflictName (name conflictType hashPart : String) : String :=
  specStem name ++ "." ++ "__" ++ conflictType ++ "__" ++ hashPart ++
    specExtSuffix name

/-- A dot-free character list is returned unsplit. -/
theorem splitLastDot_of_not_mem : ∀ {cs : List Char}, '.' ∉ cs →
    splitLastDot cs = (cs, none)
  | [], _ => rfl
  | c :: rest, h => by
    have hc : c ≠ '.' := fun hc => h (by simp [hc])
    have hrest : '.' ∉ rest := fun hr => h (by simp [hr])
    simp only [splitLastDot, splitLastDot_of_not_mem hrest]
    simp [hc]

/-- A successful split certifies that a dot occurs. -/
theorem mem_of_splitLastDot_some {cs : List Char} {b a : List Char}
    (h : splitLastDot cs = (b, some a)) : '.' ∈ cs := by
  by_contra hmem
  rw [splitLastDot_of_not_mem hmem] at h
  simp at h

/-- An unsuccessful split certifies that no dot occurs. -/
theorem not_mem_of_splitLastDot_none : ∀ {cs b : List Char},
    splitLastDot cs = (b, none) → '.' ∉ cs := by
  intro cs
  induction cs with
  | nil => intro b _; simp
  | cons c rest ih =>
    intro b h
    rcases hr : splitLastDot rest with ⟨b', a'⟩
    cases a' with
    | some a'' => rw [splitLastDot, hr] at h; simp at h
    | none =>
      rw [splitLastDot, hr] at h
      by_cases hc : c = '.'
      · simp [hc] at h
      · simp only [hc, if_neg hc] at h
        simp only [List.mem_cons, not_or]
        exact ⟨fun he => hc he.symm, ih hr⟩

/-- The split recomposes to the original list. -/
theorem splitLastDot_recomp : ∀ {cs b a : List Char},
    splitLastDot cs = (b, some a) → cs = b ++ '.' :: a := by
  intro cs
  induction cs with
  | nil => intro b a h; simp [splitLastDot] at h
  | cons c rest ih =>
    intro b a h
    rcases hr : splitLastDot rest with ⟨b', a'⟩
    cases a' with
    | some a'' =>
      rw [splitLastDot, hr] at h
      have h1 := congrArg Prod.fst h
      have h2 := congrArg Prod.snd h
      simp only [Option.some.injEq] at h1 h2
      subst h1
      cases h2
      simp [ih hr]
    | none =>
      rw [splitLastDot, hr] at h
      by_cases hc : c = '.'
      · simp only [hc, if_pos rfl] at h
        have h1 := congrArg Prod.fst h
        have h2 := congrArg Prod.snd h
        simp only [Option.some.injEq] at h1 h2
        subst h1
        cases h2
        simp [hc]
      · simp only [hc, if_neg hc] at h
        simp at h

/-- The portion after the final dot is dot-free. -/
theorem splitLastDot_after_no_dot : ∀ {cs b a : List Char},
    splitLastDot cs = (b, some a) → '.' ∉ a := by
  intro cs
  induction cs with
  | nil => intro b a h; simp [splitLastDot] at h
  | cons c rest ih =>
    intro b a h
    rcases hr : splitLastDot rest with ⟨b', a'⟩
    cases a' with
    | some a'' =>
      rw [splitLastDot, hr] at h
      have h2 := congrArg Prod.snd h
      simp only [Option.some.injEq] at h2
      cases h2
      exact ih hr
    | none =>
      rw [splitLastDot, hr] at h
      by_cases hc : c = '.'
      · simp only [hc, if_pos rfl] at h
        have h2 := congrArg Prod.snd h
        simp only [Option.some.injEq] at h2
        cases h2
        exact not_mem_of_splitLastDot_none hr
      · simp only [hc, if_neg hc] at h
        simp at h

/-- The split components are the spec-side before/after lists. -/
theorem splitLastDot_eq_spec : ∀ {cs b a : List Char},
    splitLastDot cs = (b, some a) →
    b = beforeLastDot cs ∧ a = afterLastDot cs := by
  intro cs
  induction cs with
  | nil => intro b a h; simp [splitLastDot] at h
  | cons c rest ih =>
    intro b a h
    rcases hr : splitLastDot rest with ⟨b', a'⟩
    cases a' with
    | some a'' =>
      rw [splitLastDot, hr] at h
      have h1 := congrArg Prod.fst h
      have h2 := congrArg Prod.snd h
      simp only [Option.some.injEq] at h1 h2
      obtain ⟨hb', ha'⟩ := ih hr
      have hmem : '.' ∈ rest := mem_of_splitLastDot_some hr
      subst h1
      cases h2
      simp [beforeLastDot, afterLastDot, hmem, ← hb', ← ha']
    | none =>
      rw [splitLastDot, hr] at h
      by_cases hc : c = '.'
      · simp only [hc, if_pos rfl] at h
        have h1 := congrArg Prod.fst h
        have h2 := congrArg Prod.snd h
        simp only [Option.some.injEq] at h1 h2
        have hmem : '.' ∉ rest := not_mem_of_splitLastDot_none hr
        subst h1
        cases h2
        simp [beforeLastDot, afterLastDot, hmem]
      · simp only [hc, if_neg hc] at h
        simp at h

/-- The Rust stem computation agrees with the spec's wording. -/
theorem stemOfName_eq_spec (name : String) : stemOfName name = specStem name := by
  unfold stemOfName specStem specHasExt
  rcases h : splitLastDot name.data with ⟨b, a?⟩
  cases a? with
  | none =>
    have hnm : '.' ∉ name.data := not_mem_of_splitLastDot_none h
    have hnd : '.' ∉ name.data.tail := fun hmem =>
      hnm (List.mem_of_mem_tail hmem)
    simp [h, hnd]
  | some a =>
    by_cases hb : b = []
    · subst hb
      have hrec := splitLastDot_recomp h
      have hnd : '.' ∉ a := splitLastDot_after_no_dot h
      have hdrop : name.data.tail = a := by rw [hrec]; rfl
      simp [h, hdrop, hnd]
    · obtain ⟨hbs, _⟩ := splitLastDot_eq_spec h
      have hrec := splitLastDot_recomp h
      have hmem : '.' ∈ name.data.tail := by
        rw [hrec]
        cases b with
        | nil => exact absurd rfl hb
        | cons x xs => simp
      simp [h, hmem, hb, ← hbs]

/-- The Rust extension suffix agrees with the spec's wording. -/
theorem extSuffix_eq_spec (name : String) :
    (match extOfName name with
     | some e => "." ++ e
     | none => "") = specExtSuffix name := by
  unfold extOfName specExtSuffix specHasExt
  rcases h : splitLastDot name.data with ⟨b, a?⟩
  cases a? with
  | none =>
    have hnm : '.' ∉ name.data := not_mem_of_splitLastDot_none h
    have hnd : '.' ∉ name.data.tail := fun hmem =>
      hnm (List.mem_of_mem_tail hmem)
    simp [h, hnd]
  | some a =>
    by_cases hb : b = []
    · subst hb
      have hrec := splitLastDot_recomp h
      have hnd : '.' ∉ a := splitLastDot_after_no_dot h
      have hdrop : name.data.tail = a := by rw [hrec]; rfl
      simp [h, hdrop, hnd]
    · obtain ⟨_, has⟩ := splitLastDot_eq_spec h
      have hrec := splitLastDot_recomp h
      have hmem : '.' ∈ name.data.tail := by
        rw [hrec]
        cases b with
        | nil => exact absurd rfl hb
        | cons x xs => simp
      simp [h, hmem, hb, ← has]

/-- C7: for every conflict-named destination, the file name produced is
`<stem>.__<TAG>__<hash>.<ext>` in the parent directory the file would have
had, where stem is the source file name before its last dot (the whole name
when there is no dot or it only leads), the hash portion is the supplied
hash or else the on-demand `hash_file` result, empty when that fails, and
`.<ext>` is appended only when the source name has an extension. -/
theorem c7_merge_conflict_dest_name (fs : FS) (wp : String) (src : FPath)
    (sub : List String) (oh : Option String) (tag : String) (n : String)
    (hname : src.fileName = some n) :
    get_merge_conflict_dest_file_path fs wp src sub oh tag =
      ⟨wp, sub.dropLast ++
        [specConflictName n tag
          (match oh with
           | some h => h
           | none => (fs.hashFile src).getD "")]⟩ := by
  unfold get_merge_conflict_dest_file_path mergeConflictFileName
    specConflictName
  rw [hname]
  have hhash : (match oh with
      | some h => h
      | none =>
        match fs.hashFile src with
        | some h => h
        | none => "") =
      (match oh with
       | some h => h
       | none => (fs.hashFile src).getD "") := by
    cases oh with
    | some h => rfl
    | none => cases fs.hashFile src <;> rfl
  simp only [hhash, stemOfName_eq_spec, extSuffix_eq_spec]

/-- Oracle used by the C7 witness: hashing fails everywhere. -/
theorem c7_witness :
    get_merge_conflict_dest_file_path fsAllFail "C" ⟨"A", ["d", "p.txt"]⟩
        ["d", "p.txt"] (some "h1") "READ_MERGE_CONFLICT" =
      ⟨"C", ["d", "p.__READ_MERGE_CONFLICT__h1.txt"]⟩ ∧
    get_merge_conflict_dest_file_path fsAllFail "C" ⟨"A", ["q"]⟩ ["q"] none
        "WRITE_MERGE_CONFLICT" =
      ⟨"C", ["q.__WRITE_MERGE_CONFLICT__"]⟩ :=
  ⟨(c7_merge_conflict_dest_name fsAllFail "C" ⟨"A", ["d", "p.txt"]⟩
      ["d", "p.txt"] (some "h1") "READ_MERGE_CONFLICT" "p.txt" rfl).trans
      (by decide),
   (c7_merge_conflict_dest_name fsAllFail "C" ⟨"A", ["q"]⟩ ["q"] none
      "WRITE_MERGE_CONFLICT" "q" rfl).trans (by decide)⟩

/-- The conflict-named file name is strictly longer than the source file
name it derives from. -/
theorem length_lt_mergeConflictFileName (n h tag : String) :
    n.length < (mergeConflictFileName (some n) h tag).length := by
  have hnlen : n.length = n.data.length := rfl
  have hdot : (".").length = 1 := rfl
  have hund : ("__").length = 2 := rfl
  have hemp : ("" : String).length = 0 := rfl
  unfold mergeConflictFileName stemOfName extOfName
  rcases hs : splitLastDot n.data with ⟨b, a?⟩
  cases a? with
  | none =>
    simp only [hs, String.length_append, hdot, hund, hemp]
    omega
  | some a =>
    by_cases hb : b = []
    · subst hb
      simp only [hs]
      simp [String.length_append, hdot, hund, hemp]
      omega
    · have hrec := splitLastDot_recomp hs
      have hlen : n.data.length = b.length + 1 + a.length := by
        rw [hrec]
        simp only [List.length_append, List.length_cons]
        omega
      have hmkb : (String.mk b).length = b.length := rfl
      have hmka : (String.mk a).length = a.length := rfl
      simp only [hs]
      simp [hb, String.length_append, hmkb, hmka, hdot, hund, hemp]
      omega

/-- A fold that appends per-element blocks is the flatten of the mapped
blocks. -/
theorem foldl_append_flatten {α β : Type _} (g : α → List β) :
    ∀ (l : List α) (acc : List β),
      l.foldl (fun a x => a ++ g x) acc = acc ++ (l.map g).flatten := by
  intro l
  induction l with
  | nil => intro acc; simp
  | cons x xs ih =>
    intro acc
    simp only [List.foldl_cons, List.map_cons, List.flatten_cons, ih,
      List.append_assoc]

/-- The length of a flatten whose blocks all have length `k`. -/
theorem flatten_map_length_const {α β : Type _} (g : α → List β) (k : Nat) :
    ∀ l : List α, (∀ x ∈ l, (g x).length = k) →
      ((l.map g).flatten).length = l.length * k := by
  intro l
  induction l with
  | nil => intro _; simp
  | cons x xs ih =>
    intro h
    have hx := h x (by simp)
    have hxs := ih fun y hy => h y (List.mem_cons_of_mem _ hy)
    simp only [List.map_cons, List.flatten_cons, List.length_append, hx, hxs,
      List.length_cons, Nat.succ_mul]
    omega

/-- An indexed element of a list appears in its enumeration. -/
theorem mem_enumFrom_of_getElem? {α : Type _} :
    ∀ (l : List α) (n i : Nat) (x : α), l[i]? = some x →
      (n + i, x) ∈ List.enumFrom n l := by
  intro l
  induction l with
  | nil => intro n i x h; simp at h
  | cons y ys ih =>
    intro n i x h
    cases i with
    | zero =>
      simp only [List.getElem?_cons_zero, Option.some.injEq] at h
      subst h
      simp [List.enumFrom]
    | succ j =>
      simp only [List.getElem?_cons_succ] at h
      have hmem := ih (n + 1) j x h
      have harith : n + (j + 1) = (n + 1) + j := by omega
      rw [harith]
      exact List.mem_cons_of_mem _ hmem

/-- C3: when the arbiter's per-`Merge` hash deduplication map holds two or
more distinct hashes, it enqueues, for every write path and every distinct
hash, one `CopyFileRequest` whose destination carries a
`READ_MERGE_CONFLICT` name with that hash; it enqueues no `CopyFileRequest`
for the plain destination path `write_path/sub_path`; and the unit's
`MergeResult` is `Conflict`. -/
theorem c3_read_merge_conflict_dispatch (fs : FS) (ctx : RunCtx)
    (wps : List String) (chs : List (List (Option HashResult)))
    (recvd : List (Option HashResult)) (rem : List (List (Option HashResult)))
    (sub : List String)
    (hrecv : recvAll chs = (some recvd, rem))
    (hlen : 2 ≤ (buildHashMap recvd).length)
    (hsub : ∀ e ∈ buildHashMap recvd, e.2.sub_path = sub)
    (hfn : ∀ e ∈ buildHashMap recvd, e.2.src_path.fileName = sub.getLast?) :
    (handle_hash_merge fs ctx wps chs).result = .Conflict ∧
    (handle_hash_merge fs ctx wps chs).sends =
      ((wps.enum.map fun iwp => (buildHashMap recvd).map fun e =>
        (iwp.1,
         ({ src_path := e.2.src_path
            dest_path := get_merge_conflict_dest_file_path fs iwp.2
              e.2.src_path e.2.sub_path (some e.2.hash)
              "READ_MERGE_CONFLICT" } : CopyFileRequest))).flatten) ∧
    (handle_hash_merge fs ctx wps chs).sends.length =
      wps.length * (buildHashMap recvd).length ∧
    (∀ i wp, wps[i]? = some wp → ∀ e ∈ buildHashMap recvd,
      (i,
       ({ src_path := e.2.src_path
          dest_path := get_merge_conflict_dest_file_path fs wp
            e.2.src_path e.2.sub_path (some e.2.hash)
            "READ_MERGE_CONFLICT" } : CopyFileRequest)) ∈
        (handle_hash_merge fs ctx wps chs).sends) ∧
    (∀ s ∈ (handle_hash_merge fs ctx wps chs).sends, ∀ wp0 : String,
      s.2.dest_path ≠ ⟨wp0, sub⟩) := by
  obtain ⟨p, q, rest, hm⟩ :
      ∃ p q rest, buildHashMap recvd = p :: q :: rest := by
    rcases hmm : buildHashMap recvd with _ | ⟨p, _ | ⟨q, rest⟩⟩
    · rw [hmm] at hlen; simp at hlen
    · rw [hmm] at hlen; simp at hlen
    · exact ⟨p, q, rest, rfl⟩
  have hsends : (handle_hash_merge fs ctx wps chs).sends =
      ((wps.enum.map fun iwp => (buildHashMap recvd).map fun e =>
        (iwp.1,
         ({ src_path := e.2.src_path
            dest_path := get_merge_conflict_dest_file_path fs iwp.2
              e.2.src_path e.2.sub_path (some e.2.hash)
              "READ_MERGE_CONFLICT" } : CopyFileRequest))).flatten) := by
    rw [hm]
    simp only [handle_hash_merge, hrecv, hm]
    rw [foldl_append_flatten]
    simp
  have hres : (handle_hash_merge fs ctx wps chs).result = .Conflict := by
    simp only [handle_hash_merge, hrecv, hm]
  refine ⟨hres, hsends, ?_, ?_, ?_⟩
  · rw [hsends]
    rw [flatten_map_length_const _ (buildHashMap recvd).length _
      (fun x _ => List.length_map _ _)]
    simp [List.enum]
  · intro i wp hw e he
    rw [hsends]
    refine List.mem_flatten.mpr ⟨(buildHashMap recvd).map fun e =>
      (i,
       ({ src_path := e.2.src_path
          dest_path := get_merge_conflict_dest_file_path fs wp
            e.2.src_path e.2.sub_path (some e.2.hash)
            "READ_MERGE_CONFLICT" } : CopyFileRequest)), ?_, ?_⟩
    · have henum : (i, wp) ∈ wps.enum := by
        have := mem_enumFrom_of_getElem? wps 0 i wp hw
        simpa [List.enum] using this
      exact List.mem_map.mpr ⟨(i, wp), henum, rfl⟩
    · exact List.mem_map.mpr ⟨e, he, rfl⟩
  · intro s hs wp0
    rw [hsends] at hs
    obtain ⟨L, hL, hsL⟩ := List.mem_flatten.mp hs
    obtain ⟨iwp, _, rfl⟩ := List.mem_map.mp hL
    obtain ⟨e, he, rfl⟩ := List.mem_map.mp hsL
    intro heq
    have heq' : get_merge_conflict_dest_file_path fs iwp.2 e.2.src_path
        e.2.sub_path (some e.2.hash) "READ_MERGE_CONFLICT" =
        ⟨wp0, sub⟩ := heq
    have hcomps := congrArg FPath.comps heq'
    rw [get_merge_conflict_dest_file_path] at hcomps
    simp only at hcomps
    rw [hsub e he] at hcomps
    by_cases hnil : sub = []
    · rw [hnil] at hcomps
      simp at hcomps
    · have hlast : sub.getLast? = some (sub.getLast hnil) :=
        List.getLast?_eq_getLast sub hnil
      have hname : e.2.src_path.fileName = some (sub.getLast hnil) := by
        rw [hfn e he, hlast]
      rw [hname] at hcomps
      have hsplit := (List.dropLast_append_getLast hnil).symm
      have h2 : sub.dropLast ++
          [mergeConflictFileName (some (sub.getLast hnil)) e.2.hash
            "READ_MERGE_CONFLICT"] =
          sub.dropLast ++ [sub.getLast hnil] := hcomps.trans hsplit
      have hn := List.append_cancel_left h2
      have hne := List.cons_eq_cons.mp hn
      have hlt := length_lt_mergeConflictFileName (sub.getLast hnil)
        e.2.hash "READ_MERGE_CONFLICT"
      rw [hne.1] at hlt
      exact Nat.lt_irrefl _ hlt

/-- Witness for C3 at a two-source read conflict: sources `A/p.txt` and
`B/p.txt` with distinct hashes `a` and `b`, one write path `C`. -/
theorem c3_witness :
    (handle_hash_merge fsAllFail { running := true, clean := true } ["C"]
      [[some { sub_path := ["p.txt"], src_path := ⟨"A", ["p.txt"]⟩
               hash := "a" }],
       [some { sub_path := ["p.txt"], src_path := ⟨"B", ["p.txt"]⟩
               hash := "b" }]]).result = .Conflict ∧
    (handle_hash_merge fsAllFail { running := true, clean := true } ["C"]
      [[some { sub_path := ["p.txt"], src_path := ⟨"A", ["p.txt"]⟩
               hash := "a" }],
       [some { sub_path := ["p.txt"], src_path := ⟨"B", ["p.txt"]⟩
               hash := "b" }]]).sends.length = 2 ∧
    (0, ({ src_path := ⟨"A", ["p.txt"]⟩
           dest_path := get_merge_conflict_dest_file_path fsAllFail "C"
             ⟨"A", ["p.txt"]⟩ ["p.txt"] (some "a")
             "READ_MERGE_CONFLICT" } : CopyFileRequest)) ∈
      (handle_hash_merge fsAllFail { running := true, clean := true } ["C"]
        [[some { sub_path := ["p.txt"], src_path := ⟨"A", ["p.txt"]⟩
                 hash := "a" }],
         [some { sub_path := ["p.txt"], src_path := ⟨"B", ["p.txt"]⟩
                 hash := "b" }]]).sends := by
  have h := c3_read_merge_conflict_dispatch fsAllFail
    { running := true, clean := true } ["C"]
    [[some { sub_path := ["p.txt"], src_path := ⟨"A", ["p.txt"]⟩
             hash := "a" }],
     [some { sub_path := ["p.txt"], src_path := ⟨"B", ["p.txt"]⟩
             hash := "b" }]]
    [some { sub_path := ["p.txt"], src_path := ⟨"A", ["p.txt"]⟩
            hash := "a" },
     some { sub_path := ["p.txt"], src_path := ⟨"B", ["p.txt"]⟩
            hash := "b" }]
    [[], []] ["p.txt"] (by decide) (by decide) (by decide) (by decide)
  exact ⟨h.1, (h.2.2.1).trans (by decide),
    h.2.2.2.1 0 "C" (by decide)
      ("a", { sub_path := ["p.txt"], src_path := ⟨"A", ["p.txt"]⟩
              hash := "a" }) (by decide)⟩

/-- The hash-request events of one merge unit: one element per channel,
tagged with the channel index, in index order starting at 0. -/
def hashReqEvents (reqs : List (Option HashRequest)) : List DiscEvent :=
  (List.enumFrom 0 reqs).map fun p => .hashReq p.1 p.2

/-- discover.rs, per-read-path file test for one dirent: the dirent appears
in this read path's dirent map and the full path there is a file — exactly
the condition under which the classification loop records `some full_path`
for that read path (the read path "holds the file"). -/
def holdsFile (rp : String × FsTree) (sub : List String) (d : String) : Bool :=
  if d ∈ direntNamesOf rp.2 sub then
    match rp.2.lookup (sub ++ [d]) with
    | some (.file _) => true
    | some (.dir _ _) => false
    | some (.other _) => false
    | none => false
  else false

/-- The elements the merge branch sends, one per read path in index order:
`some` the `HashRequest` for exactly the read paths that hold the file at
`sub ++ [d]`, and a `none` placeholder for those that do not. -/
def mergeReqs (rps : List (String × FsTree)) (sub : List String)
    (d : String) : List (Option HashRequest) :=
  rps.map fun rp =>
    if holdsFile rp sub d then
      some { sub_path := sub ++ [d], src_path := ⟨rp.1, sub ++ [d]⟩ }
    else none

/-- A complete discoverer unit over the read paths: either, for some sub
path and dirent, the per-read-path hash elements of `mergeReqs` — exactly
one per hash channel, in read-path index order, `some` holding the
`HashRequest` precisely for the read paths that hold the file and `none`
for those that do not — followed by the `Merge` token, or one copy-to-dest
request followed by the `Copy` token. -/
def IsDiscUnit (rps : List (String × FsTree)) (u : List DiscEvent) : Prop :=
  (∃ sub d, u = hashReqEvents (mergeReqs rps sub d) ++ [.xfer .Merge]) ∨
  (∃ r, u = [.copyToDest r, .xfer .Copy])

/-- A (possibly empty) run of indexed hash-request events starting at
channel 0 — the only shape a truncated trailing unit can take. -/
def IsHashRun (evs : List DiscEvent) : Prop :=
  ∃ reqs, evs = hashReqEvents reqs

/-- The discoverer's ordering contract on a trace: a concatenation of
complete units followed by at most one truncated hash run, so every `Merge`
token is immediately preceded by exactly one element per hash channel in
index order, and every `Copy` token by its copy-to-dest request. -/
def GoodDiscTrace (rps : List (String × FsTree)) (evs : List DiscEvent) :
    Prop :=
  ∃ (units : List (List DiscEvent)) (tailEvs : List DiscEvent),
    evs = units.flatten ++ tailEvs ∧
    (∀ u ∈ units, IsDiscUnit rps u) ∧ IsHashRun tailEvs

/-- From step `s` on, the running flag reads false. -/
def DeadFrom (running : Nat → Bool) (s : Nat) : Prop :=
  ∀ t, s ≤ t → running t = false

/-- The running flag is cleared permanently: in the program nothing ever
stores true into it again. -/
def RunMono (running : Nat → Bool) : Prop :=
  ∀ s, running s = false → DeadFrom running s

/-- The decomposition invariant of one discoverer call, together with the
fact that a truncated trailing run certifies the running flag was observed
false at the final check counter. -/
def GoodDiscOut (running : Nat → Bool) (rps : List (String × FsTree))
    (o : DiscOut) : Prop :=
  ∃ (units : List (List DiscEvent)) (tailEvs : List DiscEvent),
    o.events = units.flatten ++ tailEvs ∧
    (∀ u ∈ units, IsDiscUnit rps u) ∧ IsHashRun tailEvs ∧
    (tailEvs ≠ [] → DeadFrom running o.step)

/-- The hash-send loop advances the check counter. -/
theorem sendHashReqs_step_le (running : Nat → Bool) (subPlus : List String) :
    ∀ phs step i, step ≤ (sendHashReqs running subPlus step i phs).step := by
  intro phs
  induction phs with
  | nil => intro step i; simp [sendHashReqs]
  | cons ph rest ih =>
    intro step i
    rw [sendHashReqs]
    by_cases hr : running step
    · simp only [hr, if_true]
      have := ih (step + 1) (i + 1)
      omega
    · simp [hr]

/-- The copy-send loop advances the check counter. -/
theorem sendCopyUnit_step_le (running : Nat → Bool) (subPlus : List String) :
    ∀ phs step, step ≤ (sendCopyUnit running subPlus step phs).step := by
  intro phs
  induction phs with
  | nil => intro step; simp [sendCopyUnit]
  | cons ph rest ih =>
    intro step
    simp only [sendCopyUnit]
    by_cases hr : running step
    · cases ph with
      | some p => simp [hr]
      | none =>
        simp only [hr, if_true]
        have := ih (step + 1)
        omega
    · simp [hr]

/-- The file-unit emission advances the check counter. -/
theorem discoverFileUnit_step_le (running : Nat → Bool) (step : Nat)
    (subPlus : List String) (phs : List (Option FPath)) (cnt : Nat) :
    step ≤ (discoverFileUnit running step subPlus phs cnt).step := by
  rw [discoverFileUnit]
  by_cases hc : cnt > 1
  · simp only [hc, if_true]
    have h1 := sendHashReqs_step_le running subPlus phs step 0
    by_cases hok : (sendHashReqs running subPlus step 0 phs).ok
    · simp only [hok, if_true]
      by_cases hr : running (sendHashReqs running subPlus step 0 phs).step
      · simp only [hr, if_true]
        omega
      · simp only [hr, Bool.false_eq_true, if_false]
        omega
    · simp only [hok, Bool.false_eq_true, if_false]
      exact h1
  · simp only [hc, if_false]
    exact sendCopyUnit_step_le running subPlus phs step

/-- A dead-from certificate transports to any later counter value. -/
theorem DeadFrom.mono {running : Nat → Bool} {s t : Nat}
    (h : DeadFrom running s) (hle : s ≤ t) : DeadFrom running t :=
  fun u hu => h u (le_trans hle hu)

/-- Under a dead running flag the hash-send loop emits nothing. -/
theorem sendHashReqs_dead (running : Nat → Bool) (subPlus : List String)
    (phs : List (Option FPath)) (step i : Nat)
    (h : DeadFrom running step) :
    (sendHashReqs running subPlus step i phs).events = [] ∧
    DeadFrom running (sendHashReqs running subPlus step i phs).step := by
  cases phs with
  | nil => exact ⟨by simp [sendHashReqs], h⟩
  | cons ph rest =>
    have hr : running step = false := h step (le_refl step)
    refine ⟨by simp [sendHashReqs, hr], ?_⟩
    have hstep : (sendHashReqs running subPlus step i (ph :: rest)).step =
        step + 1 := by
      simp [sendHashReqs, hr]
    rw [hstep]
    exact h.mono (Nat.le_succ step)

/-- Under a dead running flag the copy-send loop emits nothing. -/
theorem sendCopyUnit_dead (running : Nat → Bool) (subPlus : List String)
    (phs : List (Option FPath)) (step : Nat)
    (h : DeadFrom running step) :
    (sendCopyUnit running subPlus step phs).events = [] ∧
    DeadFrom running (sendCopyUnit running subPlus step phs).step := by
  cases phs with
  | nil => exact ⟨by simp [sendCopyUnit], h⟩
  | cons ph rest =>
    have hr : running step = false := h step (le_refl step)
    refine ⟨?_, ?_⟩
    · simp only [sendCopyUnit]
      simp [hr]
    · have hstep : (sendCopyUnit running subPlus step (ph :: rest)).step =
          step + 1 := by
        simp only [sendCopyUnit]
        simp [hr]
      rw [hstep]
      exact h.mono (Nat.le_succ step)

/-- Under a dead running flag the file-unit emission emits nothing. -/
theorem discoverFileUnit_dead (running : Nat → Bool) (step : Nat)
    (subPlus : List String) (phs : List (Option FPath)) (cnt : Nat)
    (h : DeadFrom running step) :
    (discoverFileUnit running step subPlus phs cnt).events = [] ∧
    DeadFrom running (discoverFileUnit running step subPlus phs cnt).step := by
  rw [discoverFileUnit]
  by_cases hc : cnt > 1
  · obtain ⟨he, hs⟩ := sendHashReqs_dead running subPlus phs step 0 h
    simp only [hc, if_true]
    by_cases hok : (sendHashReqs running subPlus step 0 phs).ok
    · have hr2 : running (sendHashReqs running subPlus step 0 phs).step =
          false := hs _ (le_refl _)
      simp only [hok, if_true, hr2, Bool.false_eq_true, if_false]
      exact ⟨he, hs.mono (Nat.le_succ _)⟩
    · simp only [hok, Bool.false_eq_true, if_false]
      exact ⟨he, hs⟩
  · simp only [hc, if_false]
    exact sendCopyUnit_dead running subPlus phs step h

/-- Shape of the hash-send loop's output: on completion exactly one indexed
event per placeholder, in order; on an early stop a prefix of such events,
with the running flag certified dead from the final counter. -/
theorem sendHashReqs_spec (running : Nat → Bool) (hmono : RunMono running)
    (subPlus : List String) :
    ∀ phs step i,
      ((sendHashReqs running subPlus step i phs).ok = true →
        (sendHashReqs running subPlus step i phs).events =
          (List.enumFrom i (phs.map fun ph => ph.map fun p =>
            ({ sub_path := subPlus, src_path := p } : HashRequest))).map
            fun p => DiscEvent.hashReq p.1 p.2) ∧
      ((sendHashReqs running subPlus step i phs).ok = false →
        (∃ reqs, (sendHashReqs running subPlus step i phs).events =
          (List.enumFrom i reqs).map fun p => DiscEvent.hashReq p.1 p.2) ∧
        DeadFrom running (sendHashReqs running subPlus step i phs).step) := by
  intro phs
  induction phs with
  | nil =>
    intro step i
    constructor
    · intro _
      simp [sendHashReqs]
    · intro h
      simp [sendHashReqs] at h
  | cons ph rest ih =>
    intro step i
    by_cases hr : running step
    · have hrw : sendHashReqs running subPlus step i (ph :: rest) =
          { events := DiscEvent.hashReq i (ph.map fun p =>
              ({ sub_path := subPlus, src_path := p } : HashRequest)) ::
              (sendHashReqs running subPlus (step + 1) (i + 1) rest).events
            step := (sendHashReqs running subPlus (step + 1) (i + 1) rest).step
            ok := (sendHashReqs running subPlus (step + 1) (i + 1) rest).ok } := by
        rw [sendHashReqs]
        simp [hr]
      obtain ⟨ihT, ihF⟩ := ih (step + 1) (i + 1)
      constructor
      · intro hok
        rw [hrw] at hok ⊢
        simp only at hok ⊢
        rw [ihT hok]
        simp [List.enumFrom]
      · intro hok
        rw [hrw] at hok ⊢
        simp only at hok ⊢
        obtain ⟨⟨reqs, hre⟩, hdead⟩ := ihF hok
        refine ⟨⟨(ph.map fun p =>
          ({ sub_path := subPlus, src_path := p } : HashRequest)) :: reqs,
          ?_⟩, hdead⟩
        rw [hre]
        simp [List.enumFrom]
    · have hr' : running step = false := by simpa using hr
      have hrw : sendHashReqs running subPlus step i (ph :: rest) =
          { events := [], step := step + 1, ok := false } := by
        rw [sendHashReqs]
        simp [hr']
      constructor
      · intro hok
        rw [hrw] at hok
        simp at hok
      · intro _
        rw [hrw]
        exact ⟨⟨[], by simp [List.enumFrom]⟩,
          (hmono step hr').mono (Nat.le_succ step)⟩

/-- Shape of the copy-send loop's output: nothing, or exactly one complete
copy unit; an early stop emits nothing, with the running flag certified dead
from the final counter. -/
theorem sendCopyUnit_spec (running : Nat → Bool) (hmono : RunMono running)
    (subPlus : List String) :
    ∀ phs step,
      ((sendCopyUnit running subPlus step phs).events = [] ∨
        ∃ r, (sendCopyUnit running subPlus step phs).events =
          [.copyToDest r, .xfer .Copy]) ∧
      ((sendCopyUnit running subPlus step phs).ok = false →
        (sendCopyUnit running subPlus step phs).events = [] ∧
        DeadFrom running (sendCopyUnit running subPlus step phs).step) := by
  intro phs
  induction phs with
  | nil =>
    intro step
    refine ⟨Or.inl (by simp [sendCopyUnit]), fun h => ?_⟩
    simp [sendCopyUnit] at h
  | cons ph rest ih =>
    intro step
    by_cases hr : running step
    · cases ph with
      | some p =>
        have hrw : sendCopyUnit running subPlus step (some p :: rest) =
            { events := [.copyToDest { sub_path := subPlus, src_path := p },
                .xfer .Copy]
              step := step + 1, ok := true } := by
          simp only [sendCopyUnit]
          simp [hr]
        rw [hrw]
        refine ⟨Or.inr ⟨_, rfl⟩, fun h => ?_⟩
        simp at h
      | none =>
        have hrw : sendCopyUnit running subPlus step (none :: rest) =
            sendCopyUnit running subPlus (step + 1) rest := by
          simp only [sendCopyUnit]
          simp [hr]
        rw [hrw]
        exact ih (step + 1)
    · have hr' : running step = false := by simpa using hr
      have hrw : sendCopyUnit running subPlus step (ph :: rest) =
          { events := [], step := step + 1, ok := false } := by
        simp only [sendCopyUnit]
        simp [hr']
      rw [hrw]
      exact ⟨Or.inl rfl,
        fun _ => ⟨rfl, (hmono step hr').mono (Nat.le_succ step)⟩⟩

/-- The per-dirent classification finds exactly one entry per read path, in
index order: the full path when the read path holds the file there, and a
`none` placeholder otherwise. -/
theorem classifyDirent_phs (rps : List (String × FsTree))
    (sub : List String) (d : String) :
    (classifyDirent rps sub d).2.2.2 =
      rps.map fun rp =>
        if holdsFile rp sub d then some (⟨rp.1, sub ++ [d]⟩ : FPath)
        else none := by
  suffices h : ∀ (l : List (String × FsTree))
      (st : Bool × Bool × Nat × List (Option FPath)),
      (l.foldl (fun st rp =>
        let (isF, isD, cnt, acc) := st
        if d ∈ direntNamesOf rp.2 sub then
          match rp.2.lookup (sub ++ [d]) with
          | some (.dir _ _) => (isF, true, cnt, acc ++ [none])
          | some (.file _) =>
            (true, isD, cnt + 1, acc ++ [some ⟨rp.1, sub ++ [d]⟩])
          | some (.other _) => (isF, isD, cnt, acc ++ [none])
          | none => (isF, isD, cnt, acc ++ [none])
        else (isF, isD, cnt, acc ++ [none])) st).2.2.2 =
        st.2.2.2 ++ l.map (fun rp =>
          if holdsFile rp sub d then some (⟨rp.1, sub ++ [d]⟩ : FPath)
          else none) by
    rw [classifyDirent, h]
    simp
  intro l
  induction l with
  | nil => intro st; simp
  | cons rp rest ih =>
    intro st
    obtain ⟨isF, isD, cnt, acc⟩ := st
    rw [List.foldl_cons]
    by_cases hmem : d ∈ direntNamesOf rp.2 sub
    · simp only [hmem, if_true]
      rcases hlk : rp.2.lookup (sub ++ [d]) with _ | t
      · rw [ih]
        simp [holdsFile, hmem, hlk]
      · cases t with
        | file m =>
          rw [ih]
          simp [holdsFile, hmem, hlk]
        | dir m es =>
          rw [ih]
          simp [holdsFile, hmem, hlk]
        | other m =>
          rw [ih]
          simp [holdsFile, hmem, hlk]
    · simp only [hmem, if_false]
      rw [ih]
      simp [holdsFile, hmem]

/-- The hash requests built from the classification's findings are exactly
`mergeReqs`: one element per read path, in index order, `some` precisely at
the read paths holding the file. -/
theorem classifyDirent_reqs (rps : List (String × FsTree))
    (sub : List String) (d : String) :
    ((classifyDirent rps sub d).2.2.2).map (fun ph => ph.map fun p =>
      ({ sub_path := sub ++ [d], src_path := p } : HashRequest)) =
      mergeReqs rps sub d := by
  rw [classifyDirent_phs, List.map_map, mergeReqs]
  congr 1
  funext rp
  by_cases h : holdsFile rp sub d <;> simp [h, Function.comp]

/-- Shape of the file-unit emission for one classified dirent: on completion
nothing or one complete unit — in the merge case exactly the per-read-path
elements of `mergeReqs`, one per channel in index order; on an early stop a
hash-run, with the running flag certified dead. -/
theorem discoverFileUnit_spec (running : Nat → Bool) (hmono : RunMono running)
    (step : Nat) (sub : List String) (d : String)
    (rps : List (String × FsTree)) (phs : List (Option FPath)) (cnt : Nat)
    (hphs : (classifyDirent rps sub d).2.2.2 = phs) :
    ((discoverFileUnit running step (sub ++ [d]) phs cnt).ok = true →
      (discoverFileUnit running step (sub ++ [d]) phs cnt).events = [] ∨
        IsDiscUnit rps
          (discoverFileUnit running step (sub ++ [d]) phs cnt).events) ∧
    ((discoverFileUnit running step (sub ++ [d]) phs cnt).ok = false →
      IsHashRun (discoverFileUnit running step (sub ++ [d]) phs cnt).events ∧
      DeadFrom running
        (discoverFileUnit running step (sub ++ [d]) phs cnt).step) := by
  rw [discoverFileUnit]
  by_cases hc : cnt > 1
  · simp only [hc, if_true]
    obtain ⟨hT, hF⟩ := sendHashReqs_spec running hmono (sub ++ [d]) phs step 0
    by_cases hok : (sendHashReqs running (sub ++ [d]) step 0 phs).ok
    · simp only [hok, if_true]
      by_cases hr : running (sendHashReqs running (sub ++ [d]) step 0 phs).step
      · simp only [hr, if_true]
        constructor
        · intro _
          right
          left
          refine ⟨sub, d, ?_⟩
          have hreq : (phs.map fun ph => ph.map fun p =>
              ({ sub_path := sub ++ [d], src_path := p } : HashRequest)) =
              mergeReqs rps sub d := by
            rw [← hphs]
            exact classifyDirent_reqs rps sub d
          rw [hT hok, ← hreq]
          rfl
        · intro h
          simp at h
      · have hr' : running (sendHashReqs running (sub ++ [d]) step 0 phs).step =
            false := by simpa using hr
        rw [if_neg (by simp [hr'])]
        constructor
        · intro h
          simp at h
        · intro _
          exact ⟨⟨_, hT hok⟩, (hmono _ hr').mono (Nat.le_succ _)⟩
    · rw [if_neg (by simpa using hok)]
      constructor
      · intro h
        exact absurd h (by simpa using hok)
      · intro _
        obtain ⟨⟨reqs, hre⟩, hdead⟩ := hF (by simpa using hok)
        exact ⟨⟨reqs, hre⟩, hdead⟩
  · simp only [hc, if_false]
    obtain ⟨hshape, hstop⟩ :=
      sendCopyUnit_spec running hmono (sub ++ [d]) phs step
    constructor
    · intro _
      rcases hshape with h | ⟨r, h⟩
      · exact Or.inl h
      · exact Or.inr (Or.inr ⟨r, h⟩)
    · intro h
      obtain ⟨he, hdead⟩ := hstop h
      exact ⟨⟨[], by simp [hashReqEvents, he, List.enumFrom]⟩, hdead⟩

/-- The per-dirent classification produces one placeholder per read path. -/
theorem classifyDirent_length (rps : List (String × FsTree))
    (sub : List String) (d : String) :
    (classifyDirent rps sub d).2.2.2.length = rps.length := by
  suffices h : ∀ (l : List (String × FsTree))
      (st : Bool × Bool × Nat × List (Option FPath)),
      (l.foldl (fun st rp =>
        let (isF, isD, cnt, acc) := st
        if d ∈ direntNamesOf rp.2 sub then
          match rp.2.lookup (sub ++ [d]) with
          | some (.dir _ _) => (isF, true, cnt, acc ++ [none])
          | some (.file _) =>
            (true, isD, cnt + 1, acc ++ [some ⟨rp.1, sub ++ [d]⟩])
          | some (.other _) => (isF, isD, cnt, acc ++ [none])
          | none => (isF, isD, cnt, acc ++ [none])
        else (isF, isD, cnt, acc ++ [none])) st).2.2.2.length =
        st.2.2.2.length + l.length by
    rw [classifyDirent, h]
    simp
  intro l
  induction l with
  | nil => intro st; simp
  | cons rp rest ih =>
    intro st
    obtain ⟨isF, isD, cnt, acc⟩ := st
    rw [List.foldl_cons]
    by_cases hmem : d ∈ direntNamesOf rp.2 sub
    · simp only [hmem, if_true]
      rcases hlk : rp.2.lookup (sub ++ [d]) with _ | t
      · rw [ih]
        simp only [List.length_append]
        simp
        omega
      · cases t <;>
          (rw [ih]
           simp only [List.length_append]
           simp
           omega)
    · simp only [hmem, if_false]
      rw [ih]
      simp only [List.length_append]
      simp
      omega

/-- An output with no events satisfies the decomposition trivially. -/
theorem goodDiscOut_nil (running : Nat → Bool)
    (rps : List (String × FsTree)) (o : DiscOut)
    (h : o.events = []) : GoodDiscOut running rps o :=
  ⟨[], [], by simp [h], by simp,
    ⟨[], by simp [hashReqEvents, List.enumFrom]⟩, fun h' => absurd rfl h'⟩

/-- Under a dead running flag the tree walk emits nothing and fails with no
error. -/
theorem discoverRec_dead (running : Nat → Bool)
    (rps wps : List (String × FsTree)) (fuel step : Nat) (sub : List String)
    (h : DeadFrom running step) :
    (discoverRec running rps wps fuel step sub).events = [] ∧
    (discoverRec running rps wps fuel step sub).err = none ∧
    DeadFrom running (discoverRec running rps wps fuel step sub).step := by
  cases fuel with
  | zero =>
    refine ⟨by simp [discoverRec], by simp [discoverRec], ?_⟩
    simpa [discoverRec] using h
  | succ g =>
    have hr : running step = false := h step (le_refl step)
    refine ⟨by simp [discoverRec, hr], by simp [discoverRec, hr], ?_⟩
    have hstep : (discoverRec running rps wps (g + 1) step sub).step =
        step + 1 := by
      simp [discoverRec, hr]
    rw [hstep]
    exact h.mono (Nat.le_succ step)

/-- Unfolding of the dirent loop: the both-file-and-directory error. -/
theorem discoverLoop_cons_both (running : Nat → Bool)
    (rps wps : List (String × FsTree)) (fuel : Nat) (sub : List String)
    (step : Nat) (d : String) (ds : List String) (isF isD : Bool) (cnt : Nat)
    (phs : List (Option FPath))
    (hcl : classifyDirent rps sub d = (isF, isD, cnt, phs))
    (h1 : (isF && isD) = true) :
    discoverLoop running rps wps fuel sub step (d :: ds) =
      { events := [], step := step
        err := some "path must be a file or directory, not both" } := by
  rw [discoverLoop]
  simp [hcl, h1]

/-- Unfolding of the dirent loop: the neither-file-nor-directory error. -/
theorem discoverLoop_cons_neither (running : Nat → Bool)
    (rps wps : List (String × FsTree)) (fuel : Nat) (sub : List String)
    (step : Nat) (d : String) (ds : List String) (isF isD : Bool) (cnt : Nat)
    (phs : List (Option FPath))
    (hcl : classifyDirent rps sub d = (isF, isD, cnt, phs))
    (hf : isF = false) (hd : isD = false) :
    discoverLoop running rps wps fuel sub step (d :: ds) =
      { events := [], step := step
        err := some "path must be a file or directory" } := by
  rw [discoverLoop]
  simp [hcl, hf, hd]

/-- Unfolding of the dirent loop: a file whose metadata matches everywhere
is skipped. -/
theorem discoverLoop_cons_skip (running : Nat → Bool)
    (rps wps : List (String × FsTree)) (fuel : Nat) (sub : List String)
    (step : Nat) (d : String) (ds : List String) (isF isD : Bool) (cnt : Nat)
    (phs : List (Option FPath))
    (hcl : classifyDirent rps sub d = (isF, isD, cnt, phs))
    (hf : isF = true) (hd : isD = false)
    (ham : all_files_match rps wps (sub ++ [d]) = true) :
    discoverLoop running rps wps fuel sub step (d :: ds) =
      discoverLoop running rps wps fuel sub step ds := by
  rw [discoverLoop]
  simp [hcl, hf, hd, ham]

/-- Unfolding of the dirent loop: a file unit whose emission completed. -/
theorem discoverLoop_cons_file_ok (running : Nat → Bool)
    (rps wps : List (String × FsTree)) (fuel : Nat) (sub : List String)
    (step : Nat) (d : String) (ds : List String) (isF isD : Bool) (cnt : Nat)
    (phs : List (Option FPath))
    (hcl : classifyDirent rps sub d = (isF, isD, cnt, phs))
    (hf : isF = true) (hd : isD = false)
    (ham : all_files_match rps wps (sub ++ [d]) = false)
    (hok : (discoverFileUnit running step (sub ++ [d]) phs cnt).ok = true) :
    discoverLoop running rps wps fuel sub step (d :: ds) =
      { events := (discoverFileUnit running step (sub ++ [d]) phs cnt).events
          ++ (discoverLoop running rps wps fuel sub
              (discoverFileUnit running step (sub ++ [d]) phs cnt).step
              ds).events
        step := (discoverLoop running rps wps fuel sub
          (discoverFileUnit running step (sub ++ [d]) phs cnt).step ds).step
        err := (discoverLoop running rps wps fuel sub
          (discoverFileUnit running step (sub ++ [d]) phs cnt).step ds).err } := by
  rw [discoverLoop]
  simp [hcl, hf, hd, ham, hok]

/-- Unfolding of the dirent loop: a file unit whose emission stopped early
on the running flag. -/
theorem discoverLoop_cons_file_stop (running : Nat → Bool)
    (rps wps : List (String × FsTree)) (fuel : Nat) (sub : List String)
    (step : Nat) (d : String) (ds : List String) (isF isD : Bool) (cnt : Nat)
    (phs : List (Option FPath))
    (hcl : classifyDirent rps sub d = (isF, isD, cnt, phs))
    (hf : isF = true) (hd : isD = false)
    (ham : all_files_match rps wps (sub ++ [d]) = false)
    (hok : (discoverFileUnit running step (sub ++ [d]) phs cnt).ok = false) :
    discoverLoop running rps wps fuel sub step (d :: ds) =
      { events := (discoverFileUnit running step (sub ++ [d]) phs cnt).events
        step := (discoverFileUnit running step (sub ++ [d]) phs cnt).step
        err := none } := by
  rw [discoverLoop]
  simp [hcl, hf, hd, ham, hok]

/-- Unfolding of the dirent loop: a directory whose recursive walk failed. -/
theorem discoverLoop_cons_dir_err (running : Nat → Bool)
    (rps wps : List (String × FsTree)) (fuel : Nat) (sub : List String)
    (step : Nat) (d : String) (ds : List String) (isF isD : Bool) (cnt : Nat)
    (phs : List (Option FPath)) (e : String)
    (hcl : classifyDirent rps sub d = (isF, isD, cnt, phs))
    (hf : isF = false) (hd : isD = true)
    (herr : (discoverRec running rps wps fuel step (sub ++ [d])).err =
      some e) :
    discoverLoop running rps wps fuel sub step (d :: ds) =
      { events := (discoverRec running rps wps fuel step (sub ++ [d])).events
        step := (discoverRec running rps wps fuel step (sub ++ [d])).step
        err := some e } := by
  rw [discoverLoop]
  simp [hcl, hf, hd, herr]

/-- Unfolding of the dirent loop: a directory whose recursive walk
succeeded. -/
theorem discoverLoop_cons_dir_ok (running : Nat → Bool)
    (rps wps : List (String × FsTree)) (fuel : Nat) (sub : List String)
    (step : Nat) (d : String) (ds : List String) (isF isD : Bool) (cnt : Nat)
    (phs : List (Option FPath))
    (hcl : classifyDirent rps sub d = (isF, isD, cnt, phs))
    (hf : isF = false) (hd : isD = true)
    (herr : (discoverRec running rps wps fuel step (sub ++ [d])).err =
      none) :
    discoverLoop running rps wps fuel sub step (d :: ds) =
      { events := (discoverRec running rps wps fuel step (sub ++ [d])).events
          ++ (discoverLoop running rps wps fuel sub
              (discoverRec running rps wps fuel step (sub ++ [d])).step
              ds).events
        step := (discoverLoop running rps wps fuel sub
          (discoverRec running rps wps fuel step (sub ++ [d])).step ds).step
        err := (discoverLoop running rps wps fuel sub
          (discoverRec running rps wps fuel step (sub ++ [d])).step ds).err } := by
  rw [discoverLoop]
  simp [hcl, hf, hd, herr]

/-- Any dirent classification has a definite shape: error, skipped file,
emitted file, or directory. -/
theorem discoverLoop_flag_cases (isF isD : Bool)
    (h1 : ¬(isF && isD) = true) (h2 : ¬(!isF && !isD) = true) :
    (isF = true ∧ isD = false) ∨ (isF = false ∧ isD = true) := by
  cases isF <;> cases isD <;> simp_all

/-- Under a dead running flag the dirent loop emits nothing. -/
theorem discoverLoop_dead (running : Nat → Bool)
    (rps wps : List (String × FsTree)) :
    ∀ ds fuel sub step, DeadFrom running step →
      (discoverLoop running rps wps fuel sub step ds).events = [] ∧
      DeadFrom running (discoverLoop running rps wps fuel sub step ds).step := by
  intro ds
  induction ds with
  | nil =>
    intro fuel sub step h
    exact ⟨by simp [discoverLoop], by simpa [discoverLoop] using h⟩
  | cons d ds ih =>
    intro fuel sub step h
    rcases hcl : classifyDirent rps sub d with ⟨isF, isD, cnt, phs⟩
    by_cases h1 : (isF && isD) = true
    · rw [discoverLoop_cons_both running rps wps fuel sub step d ds isF isD
        cnt phs hcl h1]
      exact ⟨rfl, h⟩
    · by_cases h2 : (!isF && !isD) = true
      · have hff : isF = false := by
          cases isF <;> simp_all
        have hdf : isD = false := by
          cases isD <;> simp_all
        rw [discoverLoop_cons_neither running rps wps fuel sub step d ds isF
          isD cnt phs hcl hff hdf]
        exact ⟨rfl, h⟩
      · rcases discoverLoop_flag_cases isF isD h1 h2 with ⟨hf, hd⟩ | ⟨hf, hd⟩
        · by_cases ham : all_files_match rps wps (sub ++ [d]) = true
          · rw [discoverLoop_cons_skip running rps wps fuel sub step d ds isF
              isD cnt phs hcl hf hd ham]
            exact ih fuel sub step h
          · have ham' : all_files_match rps wps (sub ++ [d]) = false := by
              simpa using ham
            obtain ⟨hfe, hfd⟩ :=
              discoverFileUnit_dead running step (sub ++ [d]) phs cnt h
            by_cases hok :
                (discoverFileUnit running step (sub ++ [d]) phs cnt).ok = true
            · rw [discoverLoop_cons_file_ok running rps wps fuel sub step d ds
                isF isD cnt phs hcl hf hd ham' hok]
              obtain ⟨hre, hrd⟩ := ih fuel sub
                (discoverFileUnit running step (sub ++ [d]) phs cnt).step hfd
              exact ⟨by simp [hfe, hre], hrd⟩
            · have hok' :
                  (discoverFileUnit running step (sub ++ [d]) phs cnt).ok =
                    false := by simpa using hok
              rw [discoverLoop_cons_file_stop running rps wps fuel sub step d
                ds isF isD cnt phs hcl hf hd ham' hok']
              exact ⟨hfe, hfd⟩
        · obtain ⟨hde, hderr, hdd⟩ :=
            discoverRec_dead running rps wps fuel step (sub ++ [d]) h
          rw [discoverLoop_cons_dir_ok running rps wps fuel sub step d ds isF
            isD cnt phs hcl hf hd hderr]
          obtain ⟨hre, hrd⟩ := ih fuel sub
            (discoverRec running rps wps fuel step (sub ++ [d])).step hdd
          exact ⟨by simp [hde, hre], hrd⟩

/-- The decomposition invariant holds for every discoverer call: its event
trace is a concatenation of complete units followed by at most one truncated
hash run. -/
theorem discover_good (running : Nat → Bool) (hmono : RunMono running)
    (rps wps : List (String × FsTree)) :
    ∀ fuel,
      (∀ step sub, GoodDiscOut running rps
        (discoverRec running rps wps fuel step sub)) ∧
      (∀ ds sub step, GoodDiscOut running rps
        (discoverLoop running rps wps fuel sub step ds)) := by
  intro fuel
  induction fuel using Nat.strong_induction_on with
  | _ fuel ih =>
    have hrec : ∀ step sub, GoodDiscOut running rps
        (discoverRec running rps wps fuel step sub) := by
      intro step sub
      cases fuel with
      | zero => exact goodDiscOut_nil _ _ _ (by simp [discoverRec])
      | succ g =>
        by_cases hr : running step
        · have heq : discoverRec running rps wps (g + 1) step sub =
              discoverLoop running rps wps g sub (step + 1)
                (sortedUnion (rps.map fun rp => direntNamesOf rp.2 sub)) := by
            rw [discoverRec]
            simp [hr]
          rw [heq]
          exact (ih g (Nat.lt_succ_self g)).2 _ sub (step + 1)
        · exact goodDiscOut_nil _ _ _ (by simp [discoverRec, hr])
    refine ⟨hrec, ?_⟩
    intro ds
    induction ds with
    | nil =>
      intro sub step
      exact goodDiscOut_nil _ _ _ (by simp [discoverLoop])
    | cons d ds ihds =>
      intro sub step
      rcases hcl : classifyDirent rps sub d with ⟨isF, isD, cnt, phs⟩
      by_cases h1 : (isF && isD) = true
      · rw [discoverLoop_cons_both running rps wps fuel sub step d ds isF isD
          cnt phs hcl h1]
        exact goodDiscOut_nil _ _ _ rfl
      · by_cases h2 : (!isF && !isD) = true
        · have hff : isF = false := by
            cases isF <;> simp_all
          have hdf : isD = false := by
            cases isD <;> simp_all
          rw [discoverLoop_cons_neither running rps wps fuel sub step d ds isF
            isD cnt phs hcl hff hdf]
          exact goodDiscOut_nil _ _ _ rfl
        · rcases discoverLoop_flag_cases isF isD h1 h2 with ⟨hf, hd⟩ | ⟨hf, hd⟩
          · by_cases ham : all_files_match rps wps (sub ++ [d]) = true
            · rw [discoverLoop_cons_skip running rps wps fuel sub step d ds
                isF isD cnt phs hcl hf hd ham]
              exact ihds sub step
            · have ham' : all_files_match rps wps (sub ++ [d]) = false := by
                simpa using ham
              obtain ⟨hshape, hstop⟩ := discoverFileUnit_spec running hmono
                step sub d rps phs cnt (by rw [hcl])
              by_cases hok :
                  (discoverFileUnit running step (sub ++ [d]) phs cnt).ok =
                    true
              · rw [discoverLoop_cons_file_ok running rps wps fuel sub step d
                  ds isF isD cnt phs hcl hf hd ham' hok]
                obtain ⟨us, tl, he, hu, ht, hdead⟩ := ihds sub
                  (discoverFileUnit running step (sub ++ [d]) phs cnt).step
                rcases hshape hok with hev | hunit
                · exact ⟨us, tl, by simp [hev, he], hu, ht, hdead⟩
                · refine ⟨(discoverFileUnit running step (sub ++ [d]) phs
                    cnt).events :: us, tl, ?_, ?_, ht, hdead⟩
                  · simp [he]
                  · intro u hu'
                    rcases List.mem_cons.mp hu' with rfl | hmem
                    · exact hunit
                    · exact hu u hmem
              · have hok' :
                    (discoverFileUnit running step (sub ++ [d]) phs cnt).ok =
                      false := by simpa using hok
                rw [discoverLoop_cons_file_stop running rps wps fuel sub step
                  d ds isF isD cnt phs hcl hf hd ham' hok']
                obtain ⟨hrun, hdeadF⟩ := hstop hok'
                exact ⟨[], (discoverFileUnit running step (sub ++ [d]) phs
                  cnt).events, by simp, by simp, hrun, fun _ => hdeadF⟩
          · obtain ⟨us2, tl2, he2, hu2, ht2, hdead2⟩ :=
              hrec step (sub ++ [d])
            rcases herr : (discoverRec running rps wps fuel step
                (sub ++ [d])).err with _ | e
            · rw [discoverLoop_cons_dir_ok running rps wps fuel sub step d ds
                isF isD cnt phs hcl hf hd herr]
              by_cases htl : tl2 = []
              · subst htl
                obtain ⟨us3, tl3, he3, hu3, ht3, hdead3⟩ := ihds sub
                  (discoverRec running rps wps fuel step (sub ++ [d])).step
                refine ⟨us2 ++ us3, tl3, ?_, ?_, ht3, hdead3⟩
                · simp [he2, he3, List.flatten_append, List.append_assoc]
                · intro u hu'
                  rcases List.mem_append.mp hu' with hmem | hmem
                  · exact hu2 u hmem
                  · exact hu3 u hmem
              · have hdd := hdead2 htl
                obtain ⟨hre, hrd⟩ := discoverLoop_dead running rps wps ds fuel
                  sub (discoverRec running rps wps fuel step (sub ++ [d])).step
                  hdd
                refine ⟨us2, tl2, ?_, hu2, ht2, fun _ => hrd⟩
                simp [he2, hre, List.append_assoc]
            · rw [discoverLoop_cons_dir_err running rps wps fuel sub step d ds
                isF isD cnt phs e hcl hf hd herr]
              exact ⟨us2, tl2, he2, hu2, ht2, hdead2⟩

/-- When no hash-result channel is empty, the arbiter's receive loop takes
exactly the head of every channel, in index order. -/
theorem recvAll_nonempty :
    ∀ chs : List (List (Option HashResult)), (∀ ch ∈ chs, ch ≠ []) →
      ∃ recvd, recvAll chs = (some recvd, chs.map List.tail) ∧
        List.Forall₂ (fun x ch => List.head? ch = some x) recvd chs := by
  intro chs
  induction chs with
  | nil => intro _; exact ⟨[], rfl, List.Forall₂.nil⟩
  | cons ch chs ih =>
    intro h
    cases ch with
    | nil => exact absurd rfl (h [] (by simp))
    | cons x xs =>
      obtain ⟨recvd, hr, hf⟩ := ih fun c hc => h c (List.mem_cons_of_mem _ hc)
      refine ⟨x :: recvd, ?_, List.Forall₂.cons (by simp) hf⟩
      rw [recvAll, hr]
      simp

/-- When no hash-result channel is empty, `handle_hash_merge` consumes
exactly one element from each channel. -/
theorem handle_hash_merge_channels (fs : FS) (ctx : RunCtx)
    (wps : List String) (chs : List (List (Option HashResult)))
    (h : ∀ ch ∈ chs, ch ≠ []) :
    (handle_hash_merge fs ctx wps chs).channels = chs.map List.tail := by
  obtain ⟨recvd, hr, _⟩ := recvAll_nonempty chs h
  rw [handle_hash_merge]
  simp only [hr]
  rcases hbm : buildHashMap recvd with _ | ⟨p, rest⟩
  · rfl
  · rcases rest with _ | ⟨q, rest2⟩
    · rcases p with ⟨k, res⟩
      rfl
    · rfl

/-- C2: for every `TransferRequest::Merge` token the discoverer emits, it
has previously sent exactly one element to each of the N hash-request
channels, in read-path index order, immediately before the token — `some`
holding the `HashRequest` for exactly the read paths that hold the file and
a `none` placeholder for those that do not (the second conjunct spells out
that `mergeReqs` has one entry per read path, `some` precisely at the read
paths holding the file) — and every `Copy` token follows its copy-to-dest
request; and for every `Merge` token the arbiter consumes, it receives
exactly one element from each of the N hash-result channels in index
order. -/
theorem c2_merge_alignment :
    (∀ running : Nat → Bool, RunMono running →
      ∀ (rps wps : List (String × FsTree)) (fuel step : Nat)
        (sub : List String),
        GoodDiscTrace rps
          (discoverRec running rps wps fuel step sub).events) ∧
    (∀ (rps : List (String × FsTree)) (sub : List String) (d : String),
      (mergeReqs rps sub d).length = rps.length ∧
      ∀ i : Nat, (mergeReqs rps sub d)[i]? = (rps[i]?).map fun rp =>
        if holdsFile rp sub d then
          some { sub_path := sub ++ [d], src_path := ⟨rp.1, sub ++ [d]⟩ }
        else none) ∧
    (∀ chs : List (List (Option HashResult)), (∀ ch ∈ chs, ch ≠ []) →
      ∃ recvd, recvAll chs = (some recvd, chs.map List.tail) ∧
        List.Forall₂ (fun x ch => List.head? ch = some x) recvd chs) ∧
    (∀ (fs : FS) (ctx : RunCtx) (wps : List String)
        (chs : List (List (Option HashResult))), (∀ ch ∈ chs, ch ≠ []) →
      (handle_hash_merge fs ctx wps chs).channels = chs.map List.tail) := by
  refine ⟨?_, ?_, recvAll_nonempty, handle_hash_merge_channels⟩
  · intro running hmono rps wps fuel step sub
    obtain ⟨us, tl, he, hu, ht, _⟩ :=
      (discover_good running hmono rps wps fuel).1 step sub
    exact ⟨us, tl, he, hu, ht⟩
  · intro rps sub d
    exact ⟨by simp [mergeReqs], fun i => by simp [mergeReqs]⟩

/-- Witness for C2: a two-read-path discovery run, a concrete per-channel
element list, and a one-channel merge receive, with the hypotheses
discharged concretely. -/
theorem c2_witness :
    GoodDiscTrace
      [("A", FsTree.dir (some 0) [("f", FsTree.file (some 3))]),
       ("B", FsTree.dir (some 0) [("f", FsTree.file (some 4))])]
      (discoverRec (fun _ => true)
        [("A", FsTree.dir (some 0) [("f", FsTree.file (some 3))]),
         ("B", FsTree.dir (some 0) [("f", FsTree.file (some 4))])]
        [("C", FsTree.dir (some 0) [])] 2 0 []).events ∧
    (mergeReqs
      [("A", FsTree.dir (some 0) [("f", FsTree.file (some 3))]),
       ("B", FsTree.dir (some 0) [("f", FsTree.file (some 4))])]
      [] "f").length = 2 ∧
    (∃ recvd, recvAll [[(none : Option HashResult)]] =
      (some recvd, [[(none : Option HashResult)]].map List.tail) ∧
      List.Forall₂ (fun x ch => List.head? ch = some x) recvd
        [[(none : Option HashResult)]]) ∧
    (handle_hash_merge fsAllFail { running := true, clean := true } []
      [[(none : Option HashResult)]]).channels =
      [[(none : Option HashResult)]].map List.tail :=
  ⟨c2_merge_alignment.1 (fun _ => true) (fun _ h => absurd h (by simp))
      [("A", FsTree.dir (some 0) [("f", FsTree.file (some 3))]),
       ("B", FsTree.dir (some 0) [("f", FsTree.file (some 4))])]
      [("C", FsTree.dir (some 0) [])] 2 0 [],
   (c2_merge_alignment.2.1
      [("A", FsTree.dir (some 0) [("f", FsTree.file (some 3))]),
       ("B", FsTree.dir (some 0) [("f", FsTree.file (some 4))])]
      [] "f").1,
   c2_merge_alignment.2.2.1 [[none]] (by decide),
   c2_merge_alignment.2.2.2 fsAllFail { running := true, clean := true } []
      [[none]] (by decide)⟩

end Dit
